import Mathlib

/-!
Verification development for the `flax.nnx` package surface: the graph
split/merge engine (modelled from the specification, since only the public
re-export file is part of the sources) and the module-level dynamic
attribute fallback (embedded directly from `src/flax/nnx/__init__.py`).

Graphs are live object structures with identity: we embed them as an
explicit store mapping object identities to node contents, so shared
references and reference cycles are represented faithfully.
-/

namespace FlaxNNX

/-- Association-list lookup keyed by decidable equality (first match wins),
used for stores, reference maps and child lists. -/
def alook {κ : Type} {α : Type} [DecidableEq κ] (k : κ) : List (κ × α) → Option α
  | [] => none
  | (k', v) :: rest => if k' = k then some v else alook k rest

/-- Object identity: a stable identity per distinct object, compared by
identity (not value) equality. -/
abbrev Id := Nat

/-- A structural path: the sequence of child-selector tokens from the root. -/
abbrev Path := List String

/-- Modelled from the spec: a Variable is the mutable leaf cell, holding one
array-like value plus a metadata mapping. -/
structure Variable where
  value : Int
  metadata : List (String × String)
deriving DecidableEq, Repr

/-- Modelled from the spec: the content of a visited node — either a leaf
Variable, or a container with static attributes and an ordered collection of
named children (references to other identities). -/
inductive NodeContent where
  | leaf : Variable → NodeContent
  | node : List (String × Int) → List (String × Id) → NodeContent
deriving DecidableEq, Repr

/-- The heap of live objects: identity to content. -/
abbrev Store := List (Id × NodeContent)

/-- Modelled from the spec: a live object graph — a store of identified
objects plus a distinguished root identity. -/
structure Graph where
  store : Store
  root : Id
deriving DecidableEq, Repr

def storeKeys (st : Store) : List Id := st.map Prod.fst

def contentChildIds : NodeContent → List Id
  | .leaf _ => []
  | .node _ ch => ch.map Prod.snd

/-- `true` exactly on leaf (Variable) contents. -/
def isLeafNode : NodeContent → Bool
  | .leaf _ => true
  | .node _ _ => false

/-- Well-formed graph: identities are unique in the store, the root exists,
and every child reference resolves within the store. -/
def wfGraph (G : Graph) : Prop :=
  (storeKeys G.store).Nodup ∧ G.root ∈ storeKeys G.store ∧
    ∀ e ∈ G.store, ∀ cid ∈ contentChildIds e.2, cid ∈ storeKeys G.store

instance (G : Graph) : Decidable (wfGraph G) := by
  unfold wfGraph; infer_instance

/-- Modelled from the spec: the structural descriptor (GraphDef) — an
immutable tree of node-kind tags, child layout, static attributes and leaf
metadata; each first occurrence records the integer index assigned to its
identity, and any repeat occurrence (shared reference or cycle) is a
back-reference token to that index. Leaf values never appear. -/
inductive NodeDef where
  | leafDef : Nat → List (String × String) → NodeDef
  | nodeDef : Nat → List (String × Int) → List (String × NodeDef) → NodeDef
  | ref : Nat → NodeDef
deriving Repr

/-- Modelled from the spec: the flat leaf state (GraphState) — a flat,
deterministically ordered mapping from structural paths to leaf values. -/
abbrev GraphState := List (Path × Int)

/-- Transient state of one split walk: the borrowed store, the reference map
(identity to assigned index), the next fresh index, and the flat state
accumulated in traversal order. -/
structure SplitSt where
  store : Store
  refmap : List (Id × Nat)
  next : Nat
  flat : GraphState
deriving Repr

mutual

/-- Modelled from the spec: one depth-first deterministic traversal step of
`split`. On an identity already in the reference map, emit a back-reference
token and do not descend. Otherwise a leaf appends its value at the current
path to the flat state (metadata goes to the descriptor), and a container
recurses into its children in declared order. Fuel bounds the recursion
depth; it is proven sufficient for every well-formed graph. -/
def visit : Nat → Path → Id → SplitSt → Option (NodeDef × SplitSt)
  | 0, _, _, _ => none
  | fuel + 1, path, id, s =>
    match alook id s.refmap with
    | some idx => some (.ref idx, s)
    | none =>
      match alook id s.store with
      | none => none
      | some (.leaf v) =>
        some (.leafDef s.next v.metadata,
          { store := s.store, refmap := s.refmap ++ [(id, s.next)],
            next := s.next + 1, flat := s.flat ++ [(path, v.value)] })
      | some (.node statics children) =>
        match visitChildren fuel path children
            { store := s.store, refmap := s.refmap ++ [(id, s.next)],
              next := s.next + 1, flat := s.flat } with
        | none => none
        | some (cdefs, s') => some (.nodeDef s.next statics cdefs, s')
termination_by fuel _ _ _ => (fuel, 0)

/-- Modelled from the spec: traversal of a container's children in their
stable declared order, threading the walk state left to right. -/
def visitChildren :
    Nat → Path → List (String × Id) → SplitSt →
      Option (List (String × NodeDef) × SplitSt)
  | _, _, [], s => some ([], s)
  | fuel, path, (k, cid) :: rest, s =>
    match visit fuel (path ++ [k]) cid s with
    | none => none
    | some (d, s1) =>
      match visitChildren fuel path rest s1 with
      | none => none
      | some (ds, s2) => some ((k, d) :: ds, s2)
termination_by fuel _ cs _ => (fuel, cs.length + 1)

end

/-- Initial walk state: the reference map is transient and starts empty. -/
def initSplitSt (G : Graph) : SplitSt := ⟨G.store, [], 0, []⟩

/-- Fuel sufficient for any walk of `G` (one unit per distinct identity plus
the root step). -/
def splitFuel (G : Graph) : Nat := G.store.length + 1

/-- The full split walk, keeping the final walk state. -/
def splitRun (G : Graph) : Option (NodeDef × SplitSt) :=
  visit (splitFuel G) [] G.root (initSplitSt G)

/-- Modelled from the spec: `split(graph)` produces the structural
descriptor and the flat ordered leaf state in one traversal. `none` models
a walk that would not complete (never the case on well-formed graphs). -/
def split (G : Graph) : Option (NodeDef × GraphState) :=
  (splitRun G).map fun r => (r.1, r.2.flat)

/-- Modelled from the spec: `graphdef(graph)` — the descriptor component of
`split`. -/
def graphdef (G : Graph) : Option NodeDef := (split G).map Prod.fst

/-- Modelled from the spec: `state(graph)` — the flat-state component of
`split`. -/
def state (G : Graph) : Option GraphState := (split G).map Prod.snd

/-- Modelled from the spec: the error kinds surfaced synchronously by the
graph engine. -/
inductive GraphError where
  | structuralMismatch
  | inconsistentIdentity
  | unresolvedBackReference
  | filterConflict
deriving DecidableEq, Repr

mutual

/-- Modelled from the spec: the leaf paths a descriptor expects, in
traversal order. A back-reference token contributes none (its target was
described, and its leaves collected, at the first occurrence). -/
def leafPaths : Path → NodeDef → List Path
  | p, .leafDef _ _ => [p]
  | p, .nodeDef _ _ children => leafPathsChildren p children
  | _, .ref _ => []
termination_by _ d => sizeOf d

def leafPathsChildren : Path → List (String × NodeDef) → List Path
  | _, [] => []
  | p, (k, d) :: rest => leafPaths (p ++ [k]) d ++ leafPathsChildren p rest
termination_by _ cs => sizeOf cs

end

/-- Transient state of one merge reconstruction: the store being built, the
remaining flat state entries in traversal order, and the next index expected
to be constructed. -/
structure BuildSt where
  store : Store
  rest : GraphState
  next : Nat
deriving Repr

mutual

/-- Modelled from the spec: `merge`'s reconstruction of one descriptor node
in traversal order. A leaf token pops the next value and wraps it in a
freshly constructed Variable with the recorded metadata; a container token
merges its children and then constructs the composite; a back-reference
token resolves to the already-assigned index (which restores shared
references and cycles), and signals UnresolvedBackReference if it points at
an index never assigned earlier in the traversal. -/
def build : NodeDef → BuildSt → Except GraphError (Id × BuildSt)
  | .ref i, b =>
    if i < b.next then .ok (i, b) else .error .unresolvedBackReference
  | .leafDef idx md, b =>
    if idx = b.next then
      match b.rest with
      | [] => .error .structuralMismatch
      | (_, v) :: rest1 =>
        .ok (idx, ⟨b.store ++ [(idx, .leaf ⟨v, md⟩)], rest1, idx + 1⟩)
    else .error .unresolvedBackReference
  | .nodeDef idx statics children, b =>
    if idx = b.next then
      match buildChildren children ⟨b.store, b.rest, idx + 1⟩ with
      | .error e => .error e
      | .ok (cids, b1) =>
        .ok (idx, ⟨b1.store ++ [(idx, .node statics cids)], b1.rest, b1.next⟩)
    else .error .unresolvedBackReference
termination_by d _ => sizeOf d

/-- Modelled from the spec: reconstruction of a container's children in
descriptor order, threading the build state left to right. -/
def buildChildren :
    List (String × NodeDef) → BuildSt →
      Except GraphError (List (String × Id) × BuildSt)
  | [], b => .ok ([], b)
  | (k, d) :: rest, b =>
    match build d b with
    | .error e => .error e
    | .ok (cid, b1) =>
      match buildChildren rest b1 with
      | .error e => .error e
      | .ok (cds, b2) => .ok ((k, cid) :: cds, b2)
termination_by cs _ => sizeOf cs

end

/-- Modelled from the spec: `merge(GraphDef, GraphState)` rebuilds a live
graph from a descriptor and a flat leaf state. It signals
StructuralMismatch if the supplied state's path set does not exactly match
the descriptor's expected leaf paths (the state is never padded or
truncated), and otherwise reconstructs nodes in descriptor traversal
order. -/
def merge (D : NodeDef) (S : GraphState) : Except GraphError Graph :=
  if leafPaths [] D = S.map Prod.fst then
    match build D ⟨[], S, 0⟩ with
    | .error e => .error e
    | .ok (rootId, b) => .ok ⟨b.store, rootId⟩
  else .error .structuralMismatch

/-- Replace the content stored at one identity (first occurrence), leaving
every other entry untouched. -/
def storeWrite (id : Id) (c : NodeContent) : Store → Store
  | [] => []
  | (i, c0) :: rest =>
    if i = id then (i, c) :: rest else (i, c0) :: storeWrite id c rest

/-- Transient state of one in-place update walk: the store being mutated,
the set of identities already visited, and the remaining flat entries. -/
structure UpdSt where
  store : Store
  visited : List Id
  rest : GraphState
deriving Repr

mutual

/-- Modelled from the spec: one step of `update`'s live re-walk. It matches
the supplied flat entries by path against the graph's current structure and
overwrites the Variable at each leaf in place, allocating no new container
objects; a revisited identity is skipped. `none` models a failed update
(path mismatch or exhausted walk). -/
def upVisit : Nat → Path → Id → UpdSt → Option UpdSt
  | 0, _, _, _ => none
  | fuel + 1, path, id, u =>
    if id ∈ u.visited then some u
    else
      match alook id u.store with
      | none => none
      | some (.leaf v) =>
        match u.rest with
        | [] => none
        | (p1, val) :: rest1 =>
          if p1 = path then
            some ⟨storeWrite id (.leaf ⟨val, v.metadata⟩) u.store,
                  id :: u.visited, rest1⟩
          else none
      | some (.node _ children) =>
        upChildren fuel path children ⟨u.store, id :: u.visited, u.rest⟩
termination_by fuel _ _ _ => (fuel, 0)

/-- Modelled from the spec: the update walk over a container's children in
declared order. -/
def upChildren : Nat → Path → List (String × Id) → UpdSt → Option UpdSt
  | _, _, [], u => some u
  | fuel, path, (k, cid) :: rest, u =>
    match upVisit fuel (path ++ [k]) cid u with
    | none => none
    | some u1 => upChildren fuel path rest u1
termination_by fuel _ cs _ => (fuel, cs.length + 1)

end

/-- Modelled from the spec: `update(graph, GraphState)` overwrites the
Variables already present in the graph in place, matching entries by path
against a live re-walk, and fails (rather than silently padding or
truncating) when the supplied entries do not match the walk exactly. -/
def update (G : Graph) (S : GraphState) : Option Graph :=
  match upVisit (splitFuel G) [] G.root ⟨G.store, [], S⟩ with
  | none => none
  | some u => if u.rest = [] then some ⟨u.store, G.root⟩ else none

/-- Follow a structural path through a store starting at a given identity,
returning the identity it reaches. -/
def resolveFrom (st : Store) : Id → Path → Option Id
  | id, [] => some id
  | id, k :: rest =>
    match alook id st with
    | some (.node _ children) =>
      match alook k children with
      | some cid => resolveFrom st cid rest
      | none => none
    | _ => none

/-- The identity a structural path reaches from the graph's root. -/
def resolvePath (G : Graph) (p : Path) : Option Id := resolveFrom G.store G.root p

/-- The node content a structural path reaches. -/
def nodeAt (G : Graph) (p : Path) : Option NodeContent :=
  match resolvePath G p with
  | some i => alook i G.store
  | none => none

/-- Observable: the leaf value at a path, when the path reaches a leaf. -/
def leafValueAt (G : Graph) (p : Path) : Option Int :=
  match nodeAt G p with
  | some (.leaf v) => some v.value
  | _ => none

/-- Observable: the leaf metadata at a path. -/
def leafMetaAt (G : Graph) (p : Path) : Option (List (String × String)) :=
  match nodeAt G p with
  | some (.leaf v) => some v.metadata
  | _ => none

/-- Observable: the static attributes at a path, when it reaches a
container. -/
def staticsAt (G : Graph) (p : Path) : Option (List (String × Int)) :=
  match nodeAt G p with
  | some (.node st _) => some st
  | _ => none

/-- Observable: the ordered child-key layout at a path. -/
def childKeysAt (G : Graph) (p : Path) : Option (List String) :=
  match nodeAt G p with
  | some (.node _ ch) => some (ch.map Prod.fst)
  | _ => none


/-- A Python runtime object, represented by the fully qualified name of the
object a module-level binding refers to. Two bindings alias the same object
exactly when they hold the same qualified name. -/
abbrev PyObj := String

/-- The module globals of `flax.nnx` as bound by `src/flax/nnx/__init__.py`:
every `from ... import ... as ...` binding in source order, the
`import typing as _tp` binding, and the module-level alias assignment
`VariableState = Variable` (line 192), which binds the name VariableState to
the very same object as Variable. -/
def nnxGlobals : List (String × PyObj) := [
  ("avg_pool", "flax.linen.pooling.avg_pool"),
  ("max_pool", "flax.linen.pooling.max_pool"),
  ("min_pool", "flax.linen.pooling.min_pool"),
  ("pool", "flax.linen.pooling.pool"),
  ("Initializer", "flax.typing.Initializer"),
  ("wrappers", "flax.nnx.bridge.wrappers"),
  ("WithTag", "flax.nnx.filterlib.WithTag"),
  ("PathContains", "flax.nnx.filterlib.PathContains"),
  ("OfType", "flax.nnx.filterlib.OfType"),
  ("Any", "flax.nnx.filterlib.Any"),
  ("All", "flax.nnx.filterlib.All"),
  ("Not", "flax.nnx.filterlib.Not"),
  ("Everything", "flax.nnx.filterlib.Everything"),
  ("Nothing", "flax.nnx.filterlib.Nothing"),
  ("GraphDef", "flax.nnx.graph.GraphDef"),
  ("GraphState", "flax.nnx.graph.GraphState"),
  ("PureState", "flax.nnx.graph.PureState"),
  ("Object", "flax.nnx.object.Object"),
  ("Data", "flax.nnx.object.Data"),
  ("data", "flax.nnx.object.data"),
  ("register_data_type", "flax.nnx.object.register_data_type"),
  ("is_data_type", "flax.nnx.object.is_data_type"),
  ("Sequential", "flax.nnx.helpers.Sequential"),
  ("TrainState", "flax.nnx.helpers.TrainState"),
  ("M", "flax.nnx.module.M"),
  ("Module", "flax.nnx.module.Module"),
  ("merge", "flax.nnx.graph.merge"),
  ("UpdateContext", "flax.nnx.graph.UpdateContext"),
  ("update_context", "flax.nnx.graph.update_context"),
  ("current_update_context", "flax.nnx.graph.current_update_context"),
  ("split", "flax.nnx.graph.split"),
  ("update", "flax.nnx.graph.update"),
  ("clone", "flax.nnx.graph.clone"),
  ("pop", "flax.nnx.graph.pop"),
  ("state", "flax.nnx.graph.state"),
  ("graphdef", "flax.nnx.graph.graphdef"),
  ("iter_graph", "flax.nnx.graph.iter_graph"),
  ("call", "flax.nnx.graph.call"),
  ("SplitContext", "flax.nnx.graph.SplitContext"),
  ("split_context", "flax.nnx.graph.split_context"),
  ("MergeContext", "flax.nnx.graph.MergeContext"),
  ("merge_context", "flax.nnx.graph.merge_context"),
  ("variables", "flax.nnx.graph.variables"),
  ("freeze", "flax.nnx.graph.freeze"),
  ("mutable", "flax.nnx.graph.mutable"),
  ("pure", "flax.nnx.graph.pure"),
  ("cached_partial", "flax.nnx.graph.cached_partial"),
  ("initializers", "flax.nnx.nn.initializers"),
  ("celu", "flax.nnx.nn.activations.celu"),
  ("elu", "flax.nnx.nn.activations.elu"),
  ("gelu", "flax.nnx.nn.activations.gelu"),
  ("glu", "flax.nnx.nn.activations.glu"),
  ("hard_sigmoid", "flax.nnx.nn.activations.hard_sigmoid"),
  ("hard_silu", "flax.nnx.nn.activations.hard_silu"),
  ("hard_swish", "flax.nnx.nn.activations.hard_swish"),
  ("hard_tanh", "flax.nnx.nn.activations.hard_tanh"),
  ("leaky_relu", "flax.nnx.nn.activations.leaky_relu"),
  ("log_sigmoid", "flax.nnx.nn.activations.log_sigmoid"),
  ("log_softmax", "flax.nnx.nn.activations.log_softmax"),
  ("logsumexp", "flax.nnx.nn.activations.logsumexp"),
  ("one_hot", "flax.nnx.nn.activations.one_hot"),
  ("relu", "flax.nnx.nn.activations.relu"),
  ("relu6", "flax.nnx.nn.activations.relu6"),
  ("selu", "flax.nnx.nn.activations.selu"),
  ("sigmoid", "flax.nnx.nn.activations.sigmoid"),
  ("silu", "flax.nnx.nn.activations.silu"),
  ("soft_sign", "flax.nnx.nn.activations.soft_sign"),
  ("softmax", "flax.nnx.nn.activations.softmax"),
  ("softplus", "flax.nnx.nn.activations.softplus"),
  ("standardize", "flax.nnx.nn.activations.standardize"),
  ("swish", "flax.nnx.nn.activations.swish"),
  ("tanh", "flax.nnx.nn.activations.tanh"),
  ("MultiHeadAttention", "flax.nnx.nn.attention.MultiHeadAttention"),
  ("combine_masks", "flax.nnx.nn.attention.combine_masks"),
  ("dot_product_attention", "flax.nnx.nn.attention.dot_product_attention"),
  ("make_attention_mask", "flax.nnx.nn.attention.make_attention_mask"),
  ("make_causal_mask", "flax.nnx.nn.attention.make_causal_mask"),
  ("RNNCellBase", "flax.nnx.nn.recurrent.RNNCellBase"),
  ("LSTMCell", "flax.nnx.nn.recurrent.LSTMCell"),
  ("GRUCell", "flax.nnx.nn.recurrent.GRUCell"),
  ("OptimizedLSTMCell", "flax.nnx.nn.recurrent.OptimizedLSTMCell"),
  ("SimpleCell", "flax.nnx.nn.recurrent.SimpleCell"),
  ("RNN", "flax.nnx.nn.recurrent.RNN"),
  ("Bidirectional", "flax.nnx.nn.recurrent.Bidirectional"),
  ("Conv", "flax.nnx.nn.linear.Conv"),
  ("ConvTranspose", "flax.nnx.nn.linear.ConvTranspose"),
  ("Embed", "flax.nnx.nn.linear.Embed"),
  ("Linear", "flax.nnx.nn.linear.Linear"),
  ("LinearGeneral", "flax.nnx.nn.linear.LinearGeneral"),
  ("Einsum", "flax.nnx.nn.linear.Einsum"),
  ("LoRA", "flax.nnx.nn.lora.LoRA"),
  ("LoRALinear", "flax.nnx.nn.lora.LoRALinear"),
  ("LoRAParam", "flax.nnx.nn.lora.LoRAParam"),
  ("BatchNorm", "flax.nnx.nn.normalization.BatchNorm"),
  ("LayerNorm", "flax.nnx.nn.normalization.LayerNorm"),
  ("RMSNorm", "flax.nnx.nn.normalization.RMSNorm"),
  ("GroupNorm", "flax.nnx.nn.normalization.GroupNorm"),
  ("Dropout", "flax.nnx.nn.stochastic.Dropout"),
  ("Rngs", "flax.nnx.rnglib.Rngs"),
  ("RngStream", "flax.nnx.rnglib.RngStream"),
  ("RngState", "flax.nnx.rnglib.RngState"),
  ("RngKey", "flax.nnx.rnglib.RngKey"),
  ("RngCount", "flax.nnx.rnglib.RngCount"),
  ("fork_rngs", "flax.nnx.rnglib.fork_rngs"),
  ("reseed", "flax.nnx.rnglib.reseed"),
  ("split_rngs", "flax.nnx.rnglib.split_rngs"),
  ("restore_rngs", "flax.nnx.rnglib.restore_rngs"),
  ("PARTITION_NAME", "flax.nnx.spmd.PARTITION_NAME"),
  ("get_partition_spec", "flax.nnx.spmd.get_partition_spec"),
  ("get_named_sharding", "flax.nnx.spmd.get_named_sharding"),
  ("with_partitioning", "flax.nnx.spmd.with_partitioning"),
  ("with_sharding_constraint", "flax.nnx.spmd.with_sharding_constraint"),
  ("State", "flax.nnx.statelib.State"),
  ("to_flat_state", "flax.nnx.statelib.to_flat_state"),
  ("from_flat_state", "flax.nnx.statelib.from_flat_state"),
  ("to_pure_dict", "flax.nnx.statelib.to_pure_dict"),
  ("replace_by_pure_dict", "flax.nnx.statelib.replace_by_pure_dict"),
  ("filter_state", "flax.nnx.statelib.filter_state"),
  ("merge_state", "flax.nnx.statelib.merge_state"),
  ("split_state", "flax.nnx.statelib.split_state"),
  ("map_state", "flax.nnx.statelib.map_state"),
  ("metrics", "flax.nnx.training.metrics"),
  ("Param", "flax.nnx.variablelib.Param"),
  ("optimizer", "flax.nnx.training.optimizer"),
  ("Metric", "flax.nnx.training.metrics.Metric"),
  ("MultiMetric", "flax.nnx.training.metrics.MultiMetric"),
  ("OptState", "flax.nnx.training.optimizer.OptState"),
  ("OptArray", "flax.nnx.training.optimizer.OptArray"),
  ("OptVariable", "flax.nnx.training.optimizer.OptVariable"),
  ("Optimizer", "flax.nnx.training.optimizer.Optimizer"),
  ("ModelAndOptimizer", "flax.nnx.training.optimizer.ModelAndOptimizer"),
  ("OptState", "flax.nnx.training.optimizer.OptState"),
  ("DiffState", "flax.nnx.transforms.autodiff.DiffState"),
  ("grad", "flax.nnx.transforms.autodiff.grad"),
  ("value_and_grad", "flax.nnx.transforms.autodiff.value_and_grad"),
  ("custom_vjp", "flax.nnx.transforms.autodiff.custom_vjp"),
  ("remat", "flax.nnx.transforms.autodiff.remat"),
  ("jit", "flax.nnx.transforms.compilation.jit"),
  ("shard_map", "flax.nnx.transforms.compilation.shard_map"),
  ("StateSharding", "flax.nnx.transforms.compilation.StateSharding"),
  ("Carry", "flax.nnx.transforms.iteration.Carry"),
  ("scan", "flax.nnx.transforms.iteration.scan"),
  ("vmap", "flax.nnx.transforms.iteration.vmap"),
  ("pmap", "flax.nnx.transforms.iteration.pmap"),
  ("eval_shape", "flax.nnx.transforms.transforms.eval_shape"),
  ("cond", "flax.nnx.transforms.transforms.cond"),
  ("switch", "flax.nnx.transforms.transforms.switch"),
  ("checkify", "flax.nnx.transforms.transforms.checkify"),
  ("while_loop", "flax.nnx.transforms.iteration.while_loop"),
  ("fori_loop", "flax.nnx.transforms.iteration.fori_loop"),
  ("StateAxes", "flax.nnx.transforms.iteration.StateAxes"),
  ("A", "flax.nnx.variablelib.A"),
  ("BatchStat", "flax.nnx.variablelib.BatchStat"),
  ("Cache", "flax.nnx.variablelib.Cache"),
  ("Intermediate", "flax.nnx.variablelib.Intermediate"),
  ("Perturbation", "flax.nnx.variablelib.Perturbation"),
  ("Variable", "flax.nnx.variablelib.Variable"),
  ("VariableMetadata", "flax.nnx.variablelib.VariableMetadata"),
  ("with_metadata", "flax.nnx.variablelib.with_metadata"),
  ("variable_type_from_name", "flax.nnx.variablelib.variable_type_from_name"),
  ("variable_name_from_type", "flax.nnx.variablelib.variable_name_from_type"),
  ("register_variable_name", "flax.nnx.variablelib.register_variable_name"),
  ("mutable_array", "flax.nnx.variablelib.mutable_array"),
  ("MutableArray", "flax.nnx.variablelib.MutableArray"),
  ("is_mutable_array", "flax.nnx.variablelib.is_mutable_array"),
  ("use_mutable_arrays", "flax.nnx.variablelib.use_mutable_arrays"),
  ("using_mutable_arrays", "flax.nnx.variablelib.using_mutable_arrays"),
  ("display", "flax.nnx.visualization.display"),
  ("to_tree", "flax.nnx.extract.to_tree"),
  ("from_tree", "flax.nnx.extract.from_tree"),
  ("NodeStates", "flax.nnx.extract.NodeStates"),
  ("tabulate", "flax.nnx.summary.tabulate"),
  ("traversals", "flax.nnx.traversals"),
  ("_tp", "typing"),
  ("VariableState", "flax.nnx.variablelib.Variable")]

/-- A warning emitted during attribute access: its category and message. -/
structure PyWarning where
  category : String
  message : String
deriving DecidableEq, Repr

/-- Embedded from `src/flax/nnx/__init__.py` lines 197-209: the module-level
dynamic attribute fallback `__getattr__`. For the name VariableState it
first emits a DeprecationWarning; then a name not bound in the module
globals raises AttributeError naming the module and the missing attribute,
and a bound name returns exactly the bound object. (The quote characters
inside the source message strings are omitted here.) -/
def dunderGetattr (globals : List (String × PyObj)) (name : String) :
    List PyWarning × Except String PyObj :=
  let ws :=
    if name = "VariableState" then
      [⟨"DeprecationWarning",
        "VariableState was removed, this is just an alias to Variable. " ++
          "Plase use Variable directly instead."⟩]
    else []
  match alook name globals with
  | none => (ws, .error ("Module flax.nnx has no attribute " ++ name))
  | some v => (ws, .ok v)

/-- Python attribute access on a module (PEP 562 semantics, as used by the
interpreter for `flax.nnx`): a name bound in the module globals is returned
directly and the module-level `__getattr__` fallback is never invoked; only
a name missing from the globals goes through the fallback. -/
def moduleAttr (globals : List (String × PyObj)) (name : String) :
    List PyWarning × Except String PyObj :=
  match alook name globals with
  | some v => ([], .ok v)
  | none => dunderGetattr globals name

/-! ### Association-list lemmas -/

theorem alook_append_left {κ α : Type} [DecidableEq κ] {k : κ} {l l2 : List (κ × α)}
    {v : α} (h : alook k l = some v) : alook k (l ++ l2) = some v := by
  induction l with
  | nil => simp [alook] at h
  | cons e rest ih =>
    obtain ⟨k', v'⟩ := e
    by_cases hk : k' = k
    · simp [alook, hk] at h ⊢; exact h
    · simp [alook, hk] at h ⊢; exact ih h

theorem alook_append_none {κ α : Type} [DecidableEq κ] {k : κ} {l : List (κ × α)}
    (l2 : List (κ × α)) (h : alook k l = none) : alook k (l ++ l2) = alook k l2 := by
  induction l with
  | nil => simp
  | cons e rest ih =>
    obtain ⟨k', v'⟩ := e
    by_cases hk : k' = k
    · simp [alook, hk] at h
    · simp [alook, hk] at h ⊢; exact ih h

theorem alook_mem {κ α : Type} [DecidableEq κ] {k : κ} {l : List (κ × α)} {v : α}
    (h : alook k l = some v) : (k, v) ∈ l := by
  induction l with
  | nil => simp [alook] at h
  | cons e rest ih =>
    obtain ⟨k', v'⟩ := e
    by_cases hk : k' = k
    · simp [alook, hk] at h; subst hk h; simp
    · simp [alook, hk] at h; simp [ih h]

theorem alook_eq_none_iff {κ α : Type} [DecidableEq κ] {k : κ} {l : List (κ × α)} :
    alook k l = none ↔ k ∉ l.map Prod.fst := by
  induction l with
  | nil => simp [alook]
  | cons e rest ih =>
    obtain ⟨k', v'⟩ := e
    by_cases hk : k' = k
    · subst hk; simp [alook]
    · simp [alook, hk, ih, Ne.symm hk]

theorem alook_of_mem_nodup {κ α : Type} [DecidableEq κ] {k : κ} {l : List (κ × α)}
    {v : α} (hn : (l.map Prod.fst).Nodup) (h : (k, v) ∈ l) : alook k l = some v := by
  induction l with
  | nil => simp at h
  | cons e rest ih =>
    obtain ⟨k', v'⟩ := e
    simp only [List.map_cons, List.nodup_cons] at hn
    rcases List.mem_cons.mp h with heq | hmem
    · cases heq; simp [alook]
    · have hk : k' ≠ k := by
        rintro rfl
        exact hn.1 (List.mem_map.mpr ⟨(k', v), hmem, rfl⟩)
      simp [alook, hk]; exact ih hn.2 hmem

theorem alook_mem_vals {κ α : Type} [DecidableEq κ] {k : κ} {l : List (κ × α)} {v : α}
    (h : alook k l = some v) : v ∈ l.map Prod.snd :=
  List.mem_map.mpr ⟨(k, v), alook_mem h, rfl⟩

theorem alook_inj {κ α : Type} [DecidableEq κ] {l : List (κ × α)}
    (hn : (l.map Prod.snd).Nodup) {a b : κ} {x : α}
    (ha : alook a l = some x) (hb : alook b l = some x) : a = b := by
  induction l with
  | nil => simp [alook] at ha
  | cons e rest ih =>
    obtain ⟨k', v'⟩ := e
    simp only [List.map_cons, List.nodup_cons] at hn
    by_cases hka : k' = a <;> by_cases hkb : k' = b
    · rw [← hka, ← hkb]
    · subst hka
      simp only [alook, if_pos rfl] at ha
      simp only [alook, if_neg hkb] at hb
      have hx : v' = x := by injection ha
      exact absurd (hx ▸ alook_mem_vals hb) hn.1
    · subst hkb
      simp only [alook, if_pos rfl] at hb
      simp only [alook, if_neg hka] at ha
      have hx : v' = x := by injection hb
      exact absurd (hx ▸ alook_mem_vals ha) hn.1
    · simp only [alook, if_neg hka] at ha
      simp only [alook, if_neg hkb] at hb
      exact ih hn.2 ha hb

theorem alook_append_single_ne {κ α : Type} [DecidableEq κ] {k k' : κ}
    (l : List (κ × α)) (v : α) (h : k ≠ k') :
    alook k (l ++ [(k', v)]) = alook k l := by
  induction l with
  | nil => simp [alook, Ne.symm h]
  | cons e rest ih =>
    obtain ⟨k0, v0⟩ := e
    by_cases hk : k0 = k <;> simp [alook, hk, ih]

theorem alook_append_fresh {κ α : Type} [DecidableEq κ] {k : κ} {l : List (κ × α)}
    (v : α) (h : alook k l = none) : alook k (l ++ [(k, v)]) = some v := by
  rw [alook_append_none _ h]; simp [alook]

/-! ### Split-walk invariants -/

/-- No entry of the store is a leaf Variable. -/
def noLeaves (st : Store) : Prop := ∀ e ∈ st, isLeafNode e.2 = false

/-- Invariant carried from one split-walk state to a later one: the borrowed
store is untouched, the reference map only grows by identities of the store
(keeping keys and assigned indices duplicate-free and indices below the
fresh counter), and the flat state grows by exactly the entries whose paths
`ps` lists in order — none at all when the store has no leaves. -/
def SInvF (s s' : SplitSt) (ps : List Path) : Prop :=
  s'.store = s.store ∧
  (∃ Δ, s'.refmap = s.refmap ++ Δ ∧ ∀ e ∈ Δ, e.1 ∈ storeKeys s.store) ∧
  s.next ≤ s'.next ∧
  ((s.refmap.map Prod.fst).Nodup → (s'.refmap.map Prod.fst).Nodup) ∧
  ((∀ x ∈ s.refmap.map Prod.snd, x < s.next) →
    (∀ x ∈ s'.refmap.map Prod.snd, x < s'.next) ∧
    ((s.refmap.map Prod.snd).Nodup → (s'.refmap.map Prod.snd).Nodup)) ∧
  (∃ Δf, s'.flat = s.flat ++ Δf ∧ Δf.map Prod.fst = ps ∧
    (noLeaves s.store → Δf = []))

theorem SInvF_refl (s : SplitSt) : SInvF s s [] := by
  refine ⟨rfl, ⟨[], by simp⟩, le_refl _, id, fun h => ⟨h, id⟩, ⟨[], by simp⟩⟩

theorem SInvF_trans {s1 s2 s3 : SplitSt} {a b : List Path}
    (h12 : SInvF s1 s2 a) (h23 : SInvF s2 s3 b) : SInvF s1 s3 (a ++ b) := by
  obtain ⟨hst, ⟨Δ1, hrm1, hkeys1⟩, hn1, hnd1, hb1, ⟨Δf1, hf1, hp1, he1⟩⟩ := h12
  obtain ⟨hst2, ⟨Δ2, hrm2, hkeys2⟩, hn2, hnd2, hb2, ⟨Δf2, hf2, hp2, he2⟩⟩ := h23
  refine ⟨hst2.trans hst, ⟨Δ1 ++ Δ2, by rw [hrm2, hrm1, List.append_assoc], ?_⟩,
    le_trans hn1 hn2, fun h => hnd2 (hnd1 h), fun h => ?_, ?_⟩
  · intro e he
    rcases List.mem_append.mp he with h1 | h2
    · exact hkeys1 e h1
    · have := hkeys2 e h2
      rwa [hst] at this
  · obtain ⟨hb1a, hb1b⟩ := hb1 h
    obtain ⟨hb2a, hb2b⟩ := hb2 hb1a
    exact ⟨hb2a, fun hnd => hb2b (hb1b hnd)⟩
  · refine ⟨Δf1 ++ Δf2, by rw [hf2, hf1, List.append_assoc], by simp [hp1, hp2], ?_⟩
    intro hnl
    have h2 : noLeaves s2.store := by rwa [hst]
    simp [he1 hnl, he2 h2]

/-- The split walk preserves the borrowed store, grows the reference map and
flat state monotonically, and the paths of the freshly collected flat
entries are exactly the leaf paths of the emitted descriptor. -/
theorem visit_inv :
    ∀ fuel : Nat,
      (∀ p id s d s', visit fuel p id s = some (d, s') →
        SInvF s s' (leafPaths p d)) ∧
      (∀ p cs s ds s', visitChildren fuel p cs s = some (ds, s') →
        SInvF s s' (leafPathsChildren p ds)) := by
  intro fuel
  induction fuel with
  | zero =>
    constructor
    · intro p id s d s' h; simp [visit] at h
    · intro p cs s ds s' h
      cases cs with
      | nil =>
        simp [visitChildren] at h
        obtain ⟨h1, h2⟩ := h
        subst h1 h2
        simpa [leafPathsChildren] using SInvF_refl s
      | cons c rest =>
        obtain ⟨k, cid⟩ := c
        simp [visitChildren, visit] at h
  | succ f ih =>
    have hv : ∀ p id s d s', visit (f + 1) p id s = some (d, s') →
        SInvF s s' (leafPaths p d) := by
      intro p id s d s' h
      rw [visit] at h
      split at h
      · -- back-reference: already in the reference map
        rename_i idx hrm
        simp at h
        obtain ⟨h1, h2⟩ := h
        subst h1 h2
        simpa [leafPaths] using SInvF_refl s
      · rename_i hrm
        split at h
        · simp at h
        · -- leaf Variable
          rename_i v hst
          have hidmem : id ∈ storeKeys s.store :=
            List.mem_map.mpr ⟨(id, .leaf v), alook_mem hst, rfl⟩
          simp at h
          obtain ⟨h1, h2⟩ := h
          subst h1
          refine ⟨by rw [← h2], ⟨[(id, s.next)], by rw [← h2], by simpa using hidmem⟩,
            by rw [← h2]; simp, ?_, ?_, ?_⟩
          · intro hnd
            rw [← h2]; simp only [List.map_append]
            rw [List.nodup_append]
            refine ⟨hnd, by simp, ?_⟩
            intro a ha hb
            simp at hb
            subst hb
            exact (alook_eq_none_iff.mp hrm) ha
          · intro hb
            constructor
            · intro x hx
              rw [← h2] at hx
              simp at hx
              rcases hx with hx | hx
              · have := hb x (by simpa using hx)
                rw [← h2]; simp; omega
              · subst hx; rw [← h2]; simp
            · intro hnd
              rw [← h2]; simp only [List.map_append]
              rw [List.nodup_append]
              refine ⟨hnd, by simp, ?_⟩
              intro a ha hb2
              simp at hb2
              subst hb2
              exact absurd (hb _ ha) (lt_irrefl _)
          · refine ⟨[(p, v.value)], by rw [← h2], by simp [leafPaths], ?_⟩
            intro hnl
            have := hnl (id, .leaf v) (alook_mem hst)
            simp [isLeafNode] at this
        · -- container node
          rename_i statics children hst
          have hidmem : id ∈ storeKeys s.store :=
            List.mem_map.mpr ⟨(id, .node statics children), alook_mem hst, rfl⟩
          split at h
          · simp at h
          · rename_i cdefs s2 hch
            simp at h
            obtain ⟨h1, h2⟩ := h
            subst h1 h2
            have hstep : SInvF s
                { store := s.store, refmap := s.refmap ++ [(id, s.next)],
                  next := s.next + 1, flat := s.flat } [] := by
              refine ⟨rfl, ⟨[(id, s.next)], rfl, by simpa using hidmem⟩,
                by simp, ?_, ?_, ⟨[], by simp⟩⟩
              · intro hnd
                simp only [List.map_append]
                rw [List.nodup_append]
                refine ⟨hnd, by simp, ?_⟩
                intro a ha hb
                simp at hb
                subst hb
                exact (alook_eq_none_iff.mp hrm) ha
              · intro hb
                constructor
                · intro x hx
                  simp at hx
                  rcases hx with hx | hx
                  · have := hb x (by simpa using hx)
                    simp; omega
                  · subst hx; simp
                · intro hnd
                  simp only [List.map_append]
                  rw [List.nodup_append]
                  refine ⟨hnd, by simp, ?_⟩
                  intro a ha hb2
                  simp at hb2
                  subst hb2
                  exact absurd (hb _ ha) (lt_irrefl _)
            have hrest := ih.2 p children _ cdefs s2 hch
            have := SInvF_trans hstep hrest
            simpa [leafPaths] using this
    have hc : ∀ p cs s ds s', visitChildren (f + 1) p cs s = some (ds, s') →
        SInvF s s' (leafPathsChildren p ds) := by
      intro p cs
      induction cs with
      | nil =>
        intro s ds s' h
        simp [visitChildren] at h
        obtain ⟨h1, h2⟩ := h
        subst h1 h2
        simpa [leafPathsChildren] using SInvF_refl s
      | cons c rest ihc =>
        obtain ⟨k, cid⟩ := c
        intro s ds s' h
        rw [visitChildren] at h
        split at h
        · simp at h
        · rename_i d1 s1 hv1
          split at h
          · simp at h
          · rename_i ds2 s2 hv2
            simp at h
            obtain ⟨h1, h2⟩ := h
            subst h1 h2
            have ha := hv (p ++ [k]) cid s d1 s1 hv1
            have hb := ihc s1 ds2 s2 hv2
            have := SInvF_trans ha hb
            simpa [leafPathsChildren] using this
    exact ⟨hv, hc⟩

/-! ### Fuel sufficiency: the walk completes on every well-formed graph -/

theorem countP_impl_le {α : Type} (p q : α → Bool) (l : List α)
    (h : ∀ x ∈ l, p x = true → q x = true) : l.countP p ≤ l.countP q := by
  induction l with
  | nil => simp
  | cons a t ih =>
    have ht := ih (fun x hx => h x (List.mem_cons_of_mem a hx))
    by_cases hp : p a = true
    · have hq := h a (List.mem_cons_self a t) hp
      simp [List.countP_cons, hp, hq]; omega
    · simp only [List.countP_cons]
      rcases Bool.eq_false_or_eq_true (q a) with hq | hq <;> simp [hp, hq] <;> omega

/-- The number of store identities not yet assigned by the reference map. -/
def unvisited (s : SplitSt) : Nat :=
  (storeKeys s.store).countP (fun i => (alook i s.refmap).isNone)

theorem unvisited_le {s s' : SplitSt} {ps : List Path} (h : SInvF s s' ps) :
    unvisited s' ≤ unvisited s := by
  obtain ⟨hst, ⟨Δ, hrm, -⟩, -⟩ := h
  unfold unvisited
  rw [hst, hrm]
  apply countP_impl_le
  intro x hx hnew
  cases hold : alook x s.refmap with
  | none => simp
  | some v => rw [alook_append_left hold] at hnew; simp at hnew

theorem countP_insert_alook {rm : List (Id × Nat)} {id : Id} (x : Nat) :
    ∀ l : List Id, l.Nodup → id ∈ l → alook id rm = none →
      l.countP (fun i => (alook i (rm ++ [(id, x)])).isNone) + 1
        = l.countP (fun i => (alook i rm).isNone) := by
  intro l
  induction l with
  | nil => simp
  | cons a t ih =>
    intro hnd hmem hal
    simp only [List.nodup_cons] at hnd
    by_cases ha : a = id
    · subst ha
      have h1 : (alook a (rm ++ [(a, x)])).isNone = false := by
        rw [alook_append_fresh x hal]; rfl
      have h2 : (alook a rm).isNone = true := by rw [hal]; rfl
      have ht : t.countP (fun i => (alook i (rm ++ [(a, x)])).isNone)
          = t.countP (fun i => (alook i rm).isNone) := by
        apply List.countP_congr
        intro i hi
        have hne : i ≠ a := fun he => hnd.1 (he ▸ hi)
        rw [alook_append_single_ne rm x hne]
      simp [List.countP_cons, h1, h2, ht]
    · have hmem' : id ∈ t := by
        rcases List.mem_cons.mp hmem with he | ht
        · exact absurd he.symm ha
        · exact ht
      have ht := ih hnd.2 hmem' hal
      have hsame : alook a (rm ++ [(id, x)]) = alook a rm :=
        alook_append_single_ne rm x ha
      simp only [List.countP_cons, hsame]
      omega

theorem visit_suff :
    ∀ fuel : Nat,
      (∀ p id s, (storeKeys s.store).Nodup →
        (∀ e ∈ s.store, ∀ cid ∈ contentChildIds e.2, cid ∈ storeKeys s.store) →
        id ∈ storeKeys s.store → unvisited s < fuel →
        (visit fuel p id s).isSome) ∧
      (∀ p cs s, (storeKeys s.store).Nodup →
        (∀ e ∈ s.store, ∀ cid ∈ contentChildIds e.2, cid ∈ storeKeys s.store) →
        (∀ c ∈ cs, c.2 ∈ storeKeys s.store) → unvisited s < fuel →
        (visitChildren fuel p cs s).isSome) := by
  intro fuel
  induction fuel with
  | zero =>
    constructor
    · intro p id s _ _ _ habs; omega
    · intro p cs s _ _ _ habs; omega
  | succ f ih =>
    have hv : ∀ p i s, (storeKeys s.store).Nodup →
        (∀ e ∈ s.store, ∀ cid ∈ contentChildIds e.2, cid ∈ storeKeys s.store) →
        i ∈ storeKeys s.store → unvisited s < f + 1 →
        (visit (f + 1) p i s).isSome := by
      intro p i s hnd hclosed hmem hfuel
      rw [visit]
      cases hrm : alook i s.refmap with
      | some idx => simp
      | none =>
        obtain ⟨⟨eid, c⟩, hemem, hefst⟩ := List.mem_map.mp hmem
        simp at hefst
        subst hefst
        have hst : alook eid s.store = some c := alook_of_mem_nodup hnd hemem
        rw [hst]
        cases c with
        | leaf v => simp
        | node statics children =>
          set s1 : SplitSt :=
            { store := s.store, refmap := s.refmap ++ [(eid, s.next)],
              next := s.next + 1, flat := s.flat } with hs1
          have hdec : unvisited s1 + 1 = unvisited s :=
            countP_insert_alook s.next (storeKeys s.store) hnd hmem hrm
          have hch : (visitChildren f p children s1).isSome := by
            apply ih.2 p children s1 hnd hclosed
            · intro cpair hcp
              have := hclosed (eid, .node statics children) hemem cpair.2
              apply this
              simp only [contentChildIds]
              exact List.mem_map.mpr ⟨cpair, hcp, rfl⟩
            · omega
          obtain ⟨r, hr⟩ := Option.isSome_iff_exists.mp hch
          obtain ⟨cdefs, s2⟩ := r
          simp only [hs1] at hr
          simp [hr]
    have hc : ∀ p cs s, (storeKeys s.store).Nodup →
        (∀ e ∈ s.store, ∀ cid ∈ contentChildIds e.2, cid ∈ storeKeys s.store) →
        (∀ c ∈ cs, c.2 ∈ storeKeys s.store) → unvisited s < f + 1 →
        (visitChildren (f + 1) p cs s).isSome := by
      intro p cs
      induction cs with
      | nil => intro s _ _ _ _; simp [visitChildren]
      | cons c rest ihc =>
        obtain ⟨k, cid⟩ := c
        intro s hnd hclosed hcs hfuel
        rw [visitChildren]
        have h1 := hv (p ++ [k]) cid s hnd hclosed
          (hcs (k, cid) (List.mem_cons_self _ _)) hfuel
        obtain ⟨r1, hr1⟩ := Option.isSome_iff_exists.mp h1
        rw [hr1]
        obtain ⟨d1, s1⟩ := r1
        have hinv := (visit_inv (f + 1)).1 (p ++ [k]) cid s d1 s1 hr1
        have hstore : s1.store = s.store := hinv.1
        have h2 : (visitChildren (f + 1) p rest s1).isSome := by
          apply ihc s1
          · rw [hstore]; exact hnd
          · rw [hstore]; exact hclosed
          · intro cpair hcp; rw [hstore]; exact hcs cpair (List.mem_cons_of_mem _ hcp)
          · have := unvisited_le hinv
            omega
        obtain ⟨r2, hr2⟩ := Option.isSome_iff_exists.mp h2
        obtain ⟨ds2, s2⟩ := r2
        simp [hr2]
    exact ⟨hv, hc⟩

/-- On every well-formed graph the split walk completes: the reference-map
cycle guard prevents infinite descent and the fuel bound is sufficient. -/
theorem split_total {G : Graph} (h : wfGraph G) : (splitRun G).isSome := by
  obtain ⟨hnd, hroot, hclosed⟩ := h
  apply (visit_suff (splitFuel G)).1 [] G.root (initSplitSt G) hnd hclosed hroot
  have h1 : unvisited (initSplitSt G) ≤ (storeKeys G.store).length :=
    List.countP_le_length _
  have h2 : (storeKeys G.store).length = G.store.length := by simp [storeKeys]
  unfold splitFuel
  omega

/-! ### Merge reconstruction: the built store is a closed arena -/

/-- What one successful `build` call adds to the store: exactly the block of
indices allocated between the entry and exit counters, each exactly once,
with every child reference below the exit counter. -/
def BDelta (b b' : BuildSt) (r : Nat) : Prop :=
  b.next ≤ b'.next ∧ r < b'.next ∧
  ∃ Δ, b'.store = b.store ++ Δ ∧
    (∀ e ∈ Δ, b.next ≤ e.1 ∧ e.1 < b'.next ∧
      ∀ cid ∈ contentChildIds e.2, cid < b'.next) ∧
    (∀ j, b.next ≤ j → j < b'.next → j ∈ Δ.map Prod.fst) ∧
    (Δ.map Prod.fst).Nodup

theorem build_closure :
    ∀ n : Nat,
      (∀ d b r b', sizeOf d < n → build d b = .ok (r, b') → BDelta b b' r) ∧
      (∀ cs b rs b', sizeOf cs < n → buildChildren cs b = .ok (rs, b') →
        b.next ≤ b'.next ∧ (∀ c ∈ rs, c.2 < b'.next) ∧
        ∃ Δ, b'.store = b.store ++ Δ ∧
          (∀ e ∈ Δ, b.next ≤ e.1 ∧ e.1 < b'.next ∧
            ∀ cid ∈ contentChildIds e.2, cid < b'.next) ∧
          (∀ j, b.next ≤ j → j < b'.next → j ∈ Δ.map Prod.fst) ∧
          (Δ.map Prod.fst).Nodup) := by
  intro n
  induction n using Nat.strong_induction_on with
  | _ n ihn =>
    constructor
    · intro d b r b' hsz h
      cases d with
      | ref i =>
        rw [build] at h
        split at h
        · rename_i hlt
          simp at h
          obtain ⟨h1, h2⟩ := h
          subst h1 h2
          exact ⟨le_refl _, hlt, [], by simp, by simp, by simp, by simp⟩
        · simp at h
      | leafDef idx md =>
        rw [build] at h
        by_cases heq : idx = b.next
        · rw [if_pos heq] at h
          cases hrest : b.rest with
          | nil => rw [hrest] at h; simp at h
          | cons e tail0 =>
            obtain ⟨p0, val⟩ := e
            rw [hrest] at h
            simp at h
            obtain ⟨h1, h2⟩ := h
            subst h1
            subst h2
            refine ⟨by simp [heq], by simp, [(idx, .leaf ⟨val, md⟩)], by simp, ?_, ?_, by simp⟩
            · intro e he
              simp at he
              subst he
              simp [contentChildIds, heq]
            · intro j hj1 hj2
              simp only [List.map_cons, List.map_nil, List.mem_singleton]
              simp at hj1 hj2
              omega
        · rw [if_neg heq] at h; simp at h
      | nodeDef idx statics children =>
        rw [build] at h
        by_cases heq : idx = b.next
        · rw [if_pos heq] at h
          split at h
          · simp at h
          · rename_i cids b1 hbc
            simp at h
            obtain ⟨h1, h2⟩ := h
            subst h1
            subst h2
            have hszc : sizeOf children < sizeOf (NodeDef.nodeDef idx statics children) := by
              simp
            have ihc := (ihn _ hsz).2 children ⟨b.store, b.rest, idx + 1⟩ cids b1
              (by omega) hbc
            obtain ⟨hn1, hcids, Δc, hΔst, hΔb, hΔcomp, hΔnd⟩ := ihc
            simp only at hn1 hΔst hΔb hΔcomp
            clear hbc
            refine ⟨?_, ?_, Δc ++ [(idx, .node statics cids)], ?_, ?_, ?_, ?_⟩
            · show b.next ≤ b1.next
              omega
            · show idx < b1.next
              omega
            · show b1.store ++ [(idx, NodeContent.node statics cids)]
                = b.store ++ (Δc ++ [(idx, NodeContent.node statics cids)])
              rw [hΔst, List.append_assoc]
            · intro e he
              rcases List.mem_append.mp he with he | he
              · obtain ⟨he1, he2, he3⟩ := hΔb e he
                exact ⟨by omega, he2, he3⟩
              · rw [List.mem_singleton] at he
                subst he
                refine ⟨?_, ?_, ?_⟩
                · show b.next ≤ idx
                  omega
                · show idx < b1.next
                  omega
                · intro cid hcid
                  simp only [contentChildIds] at hcid
                  obtain ⟨cpair, hcp, rfl⟩ := List.mem_map.mp hcid
                  show cpair.2 < b1.next
                  exact hcids cpair hcp
            · intro j hj1 hj2
              have hj2' : j < b1.next := hj2
              simp only [List.map_append, List.mem_append]
              by_cases hje : j = idx
              · right; simp [hje]
              · left
                exact hΔcomp j (by omega) hj2'
            · simp only [List.map_append]
              rw [List.nodup_append]
              refine ⟨hΔnd, by simp, ?_⟩
              intro a ha hb
              simp at hb
              subst hb
              obtain ⟨e, hee, he2⟩ := List.mem_map.mp ha
              obtain ⟨q1, q2, q3⟩ := hΔb e hee
              rw [he2] at q1
              omega
        · rw [if_neg heq] at h
          simp at h
    · intro cs b rs b' hsz h
      cases cs with
      | nil =>
        rw [buildChildren] at h
        simp at h
        obtain ⟨h1, h2⟩ := h
        subst h1 h2
        exact ⟨le_refl _, by simp, [], by simp, by simp, by simp, by simp⟩
      | cons c rest =>
        obtain ⟨k, d⟩ := c
        rw [buildChildren] at h
        split at h
        · simp at h
        · rename_i cid1 b1 hb1
          split at h
          · simp at h
          · rename_i cds2 b2 hb2
            simp at h
            obtain ⟨h1, h2⟩ := h
            subst h1 h2
            have hszd : sizeOf d < sizeOf ((k, d) :: rest) := by simp; omega
            have hszr : sizeOf rest < sizeOf ((k, d) :: rest) := by simp
            have ih1 := (ihn _ hsz).1 d b cid1 b1 (by omega) hb1
            have ih2 := (ihn _ hsz).2 rest b1 cds2 b2 (by omega) hb2
            obtain ⟨hn1, hr1, Δ1, hst1, hb1', hcomp1, hnd1⟩ := ih1
            obtain ⟨hn2, hr2, Δ2, hst2, hb2', hcomp2, hnd2⟩ := ih2
            refine ⟨le_trans hn1 hn2, ?_, Δ1 ++ Δ2,
              by rw [hst2, hst1, List.append_assoc], ?_, ?_, ?_⟩
            · intro cpair hcp
              rcases List.mem_cons.mp hcp with he | hmem
              · subst he
                exact lt_of_lt_of_le hr1 hn2
              · exact hr2 cpair hmem
            · intro e he
              rcases List.mem_append.mp he with h1 | h2
              · obtain ⟨he1, he2, he3⟩ := hb1' e h1
                exact ⟨he1, lt_of_lt_of_le he2 hn2,
                  fun cid hcid => lt_of_lt_of_le (he3 cid hcid) hn2⟩
              · obtain ⟨he1, he2, he3⟩ := hb2' e h2
                exact ⟨le_trans hn1 he1, he2, he3⟩
            · intro j hj1 hj2
              simp only [List.map_append, List.mem_append]
              by_cases hjm : j < b1.next
              · left; exact hcomp1 j hj1 hjm
              · right; exact hcomp2 j (by omega) hj2
            · simp only [List.map_append]
              rw [List.nodup_append]
              refine ⟨hnd1, hnd2, ?_⟩
              intro a ha hb
              obtain ⟨e1, he1, he1f⟩ := List.mem_map.mp ha
              obtain ⟨e2, he2, he2f⟩ := List.mem_map.mp hb
              obtain ⟨q1a, q1b, q1c⟩ := hb1' e1 he1
              obtain ⟨q2a, q2b, q2c⟩ := hb2' e2 he2
              rw [he1f] at q1b
              rw [he2f] at q2a
              exact absurd (lt_of_le_of_lt q2a q1b) (lt_irrefl _)

/-! ### Simulation: merge rebuilds exactly what split described -/

/-- Correspondence between an original node content and a reconstructed one
relative to a reference map ρ: a leaf must be reconstructed with the same
value and metadata, and a container must carry the same statics and the same
child keys in order, with each child identity translated through ρ. -/
def ContMatch (ρ : List (Id × Nat)) : NodeContent → NodeContent → Prop :=
  fun c c2 =>
    match c, c2 with
    | .leaf v, .leaf v2 => v2 = v
    | .node st ch, .node st2 ch2 =>
        st2 = st ∧ List.Forall₂ (fun (a : String × Id) (a2 : String × Id) =>
          a2.1 = a.1 ∧ alook a.2 ρ = some a2.2) ch ch2
    | _, _ => False

/-- A reconstructed store entry that corresponds, through the reference map
ρ, to an original node of the graph. -/
def MatchedEntry (G : Graph) (ρ : List (Id × Nat)) (e : Id × NodeContent) : Prop :=
  ∃ oid c, alook oid ρ = some e.1 ∧ alook oid G.store = some c ∧ ContMatch ρ c e.2

theorem ContMatch_append {ρ Δ : List (Id × Nat)} {c c2 : NodeContent}
    (h : ContMatch ρ c c2) : ContMatch (ρ ++ Δ) c c2 := by
  cases c with
  | leaf v =>
    cases c2 with
    | leaf v2 => exact h
    | node st2 ch2 => exact h
  | node st ch =>
    cases c2 with
    | leaf v2 => exact h
    | node st2 ch2 =>
      obtain ⟨h1, h2⟩ := h
      exact ⟨h1, h2.imp fun a b hab => ⟨hab.1, alook_append_left hab.2⟩⟩

theorem MatchedEntry_append {G : Graph} {ρ Δ : List (Id × Nat)} {e : Id × NodeContent}
    (h : MatchedEntry G ρ e) : MatchedEntry G (ρ ++ Δ) e := by
  obtain ⟨oid, c, h1, h2, h3⟩ := h
  exact ⟨oid, c, alook_append_left h1, h2, ContMatch_append h3⟩

/-- The central simulation: whatever one split step emits, `build` accepts
and reconstructs, consuming exactly the flat entries the step produced,
allocating exactly the indices the step assigned, and producing only store
entries matched to original nodes through the reference map. -/
theorem visit_build_sim (G : Graph) (S : GraphState) :
    ∀ fuel : Nat,
      (∀ p i s d s' b, visit fuel p i s = some (d, s') →
        s.store = G.store →
        b.next = s.next →
        S = s.flat ++ b.rest →
        (∃ t2, S = s'.flat ++ t2) →
        (∀ x ∈ s.refmap.map Prod.snd, x < s.next) →
        (s.refmap.map Prod.fst).Nodup →
        (∀ e ∈ b.store, MatchedEntry G s.refmap e) →
        ∃ rid b', build d b = .ok (rid, b') ∧
          alook i s'.refmap = some rid ∧
          b'.next = s'.next ∧
          S = s'.flat ++ b'.rest ∧
          (∃ Δb, b'.store = b.store ++ Δb) ∧
          (∀ e ∈ b'.store, MatchedEntry G s'.refmap e)) ∧
      (∀ p cs s ds s' b, visitChildren fuel p cs s = some (ds, s') →
        s.store = G.store →
        b.next = s.next →
        S = s.flat ++ b.rest →
        (∃ t2, S = s'.flat ++ t2) →
        (∀ x ∈ s.refmap.map Prod.snd, x < s.next) →
        (s.refmap.map Prod.fst).Nodup →
        (∀ e ∈ b.store, MatchedEntry G s.refmap e) →
        ∃ cids b', buildChildren ds b = .ok (cids, b') ∧
          List.Forall₂ (fun (a : String × Id) (a2 : String × Id) =>
            a2.1 = a.1 ∧ alook a.2 s'.refmap = some a2.2) cs cids ∧
          b'.next = s'.next ∧
          S = s'.flat ++ b'.rest ∧
          (∃ Δb, b'.store = b.store ++ Δb) ∧
          (∀ e ∈ b'.store, MatchedEntry G s'.refmap e)) := by
  intro fuel
  induction fuel with
  | zero =>
    constructor
    · intro p i s d s' b h
      simp [visit] at h
    · intro p cs s ds s' b h h1 h2 h3 h4 h5 h6 h7
      cases cs with
      | nil =>
        simp [visitChildren] at h
        obtain ⟨hd, hs⟩ := h
        subst hd hs
        exact ⟨[], b, by rw [buildChildren], List.Forall₂.nil, h2, h3, ⟨[], by simp⟩, h7⟩
      | cons c rest =>
        obtain ⟨k, cid⟩ := c
        simp [visitChildren, visit] at h
  | succ f ih =>
    have hv : ∀ p i s d s' b, visit (f + 1) p i s = some (d, s') →
        s.store = G.store →
        b.next = s.next →
        S = s.flat ++ b.rest →
        (∃ t2, S = s'.flat ++ t2) →
        (∀ x ∈ s.refmap.map Prod.snd, x < s.next) →
        (s.refmap.map Prod.fst).Nodup →
        (∀ e ∈ b.store, MatchedEntry G s.refmap e) →
        ∃ rid b', build d b = .ok (rid, b') ∧
          alook i s'.refmap = some rid ∧
          b'.next = s'.next ∧
          S = s'.flat ++ b'.rest ∧
          (∃ Δb, b'.store = b.store ++ Δb) ∧
          (∀ e ∈ b'.store, MatchedEntry G s'.refmap e) := by
      intro p i s d s' b h hstore hnext hS hS' hbound hnodup hmatch
      rw [visit] at h
      split at h
      · -- already visited: emit a back-reference, build resolves it
        rename_i idx hrm
        simp at h
        obtain ⟨hd, hs⟩ := h
        subst hd hs
        have hidx : idx < s.next := hbound idx (alook_mem_vals hrm)
        refine ⟨idx, b, ?_, hrm, hnext, hS, ⟨[], by simp⟩, hmatch⟩
        rw [build]
        rw [if_pos (show idx < b.next by omega)]
      · rename_i hrm
        split at h
        · simp at h
        · -- leaf Variable
          rename_i v hst
          simp at h
          obtain ⟨hd, hs⟩ := h
          subst hd hs
          obtain ⟨t2, ht2⟩ := hS'
          have hrest : b.rest = (p, v.value) :: t2 := by
            have heq2 : s.flat ++ b.rest = s.flat ++ ([(p, v.value)] ++ t2) := by
              rw [← hS]
              rw [ht2]
              simp
            have := List.append_cancel_left heq2
            simpa using this
          refine ⟨s.next,
            ⟨b.store ++ [(s.next, .leaf ⟨v.value, v.metadata⟩)], t2, s.next + 1⟩,
            ?_, ?_, rfl, ht2, ⟨[(s.next, .leaf ⟨v.value, v.metadata⟩)], rfl⟩, ?_⟩
          · rw [build, if_pos hnext.symm, hrest]
          · show alook i (s.refmap ++ [(i, s.next)]) = some s.next
            exact alook_append_fresh _ hrm
          · intro e he
            rcases List.mem_append.mp he with he | he
            · show MatchedEntry G (s.refmap ++ [(i, s.next)]) e
              exact MatchedEntry_append (hmatch e he)
            · rw [List.mem_singleton] at he
              subst he
              refine ⟨i, .leaf v, ?_, ?_, ?_⟩
              · show alook i (s.refmap ++ [(i, s.next)]) = some s.next
                exact alook_append_fresh _ hrm
              · rw [hstore] at hst
                exact hst
              · show (⟨v.value, v.metadata⟩ : Variable) = v
                rfl
        · -- container node
          rename_i statics children hst
          split at h
          · simp at h
          · rename_i cdefs s2 hch
            simp at h
            obtain ⟨hd, hs⟩ := h
            subst hd hs
            have hfresh : alook i (s.refmap ++ [(i, s.next)]) = some s.next :=
              alook_append_fresh _ hrm
            have hsim := ih.2 p children
              { store := s.store, refmap := s.refmap ++ [(i, s.next)],
                next := s.next + 1, flat := s.flat }
              cdefs s2 ⟨b.store, b.rest, s.next + 1⟩ hch hstore rfl hS hS'
              (by
                intro x hx
                simp only [List.map_append, List.mem_append] at hx
                show x < s.next + 1
                rcases hx with hx | hx
                · have := hbound x hx
                  omega
                · simp at hx
                  subst hx
                  omega)
              (by
                show (List.map Prod.fst (s.refmap ++ [(i, s.next)])).Nodup
                simp only [List.map_append]
                rw [List.nodup_append]
                refine ⟨hnodup, by simp, ?_⟩
                intro a ha hb2
                simp at hb2
                subst hb2
                exact (alook_eq_none_iff.mp hrm) ha)
              (by
                intro e he
                show MatchedEntry G (s.refmap ++ [(i, s.next)]) e
                exact MatchedEntry_append (hmatch e he))
            obtain ⟨cids, b2, hbc, hf2, hb2next, hb2S, ⟨Δb2, hΔb2⟩, hb2match⟩ := hsim
            have halooki : alook i s2.refmap = some s.next := by
              have hch2 := (visit_inv f).2 p children _ cdefs s2 hch
              obtain ⟨-, ⟨Δ2, hΔ2, -⟩, -⟩ := hch2
              rw [hΔ2]
              exact alook_append_left hfresh
            refine ⟨s.next, ⟨b2.store ++ [(s.next, .node statics cids)], b2.rest, b2.next⟩,
              ?_, halooki, hb2next, hb2S, ?_, ?_⟩
            · rw [build, if_pos hnext.symm]
              rw [hbc]
            · refine ⟨Δb2 ++ [(s.next, .node statics cids)], ?_⟩
              show b2.store ++ _ = b.store ++ _
              rw [hΔb2, List.append_assoc]
            · intro e he
              rcases List.mem_append.mp he with he | he
              · exact hb2match e he
              · rw [List.mem_singleton] at he
                subst he
                refine ⟨i, .node statics children, halooki, ?_, ?_⟩
                · rw [hstore] at hst
                  exact hst
                · exact ⟨rfl, hf2⟩
    have hc : ∀ p cs s ds s' b, visitChildren (f + 1) p cs s = some (ds, s') →
        s.store = G.store →
        b.next = s.next →
        S = s.flat ++ b.rest →
        (∃ t2, S = s'.flat ++ t2) →
        (∀ x ∈ s.refmap.map Prod.snd, x < s.next) →
        (s.refmap.map Prod.fst).Nodup →
        (∀ e ∈ b.store, MatchedEntry G s.refmap e) →
        ∃ cids b', buildChildren ds b = .ok (cids, b') ∧
          List.Forall₂ (fun (a : String × Id) (a2 : String × Id) =>
            a2.1 = a.1 ∧ alook a.2 s'.refmap = some a2.2) cs cids ∧
          b'.next = s'.next ∧
          S = s'.flat ++ b'.rest ∧
          (∃ Δb, b'.store = b.store ++ Δb) ∧
          (∀ e ∈ b'.store, MatchedEntry G s'.refmap e) := by
      intro p cs
      induction cs with
      | nil =>
        intro s ds s' b h h1 h2 h3 h4 h5 h6 h7
        simp [visitChildren] at h
        obtain ⟨hd, hs⟩ := h
        subst hd hs
        exact ⟨[], b, by rw [buildChildren], List.Forall₂.nil, h2, h3, ⟨[], by simp⟩, h7⟩
      | cons c rest ihc =>
        obtain ⟨k, cid⟩ := c
        intro s ds s' b h hstore hnext hS hS' hbound hnodup hmatch
        rw [visitChildren] at h
        split at h
        · simp at h
        · rename_i d1 s1 hv1
          split at h
          · simp at h
          · rename_i ds2 s2 hv2
            simp at h
            obtain ⟨hd, hs⟩ := h
            subst hd hs
            have hinv1 := (visit_inv (f + 1)).1 (p ++ [k]) cid s d1 s1 hv1
            have hinv2 := (visit_inv (f + 1)).2 p rest s1 ds2 s2 hv2
            have hS1 : ∃ t2, S = s1.flat ++ t2 := by
              obtain ⟨-, -, -, -, -, ⟨Δf2, hΔf2, -⟩⟩ := hinv2
              obtain ⟨t2, ht2⟩ := hS'
              exact ⟨Δf2 ++ t2, by rw [ht2, hΔf2, List.append_assoc]⟩
            have hsim1 := hv (p ++ [k]) cid s d1 s1 b hv1 hstore hnext hS hS1
              hbound hnodup hmatch
            obtain ⟨rid1, b1, hbuild1, halook1, hb1next, hb1S, ⟨Δb1, hΔb1⟩, hb1match⟩ := hsim1
            obtain ⟨hst1, ⟨Δr1, hΔr1, -⟩, -, hnodup1, hbound1, -⟩ := hinv1
            have hsim2 := ihc s1 ds2 s2 b1 hv2 (by rw [hst1]; exact hstore)
              hb1next hb1S hS' (hbound1 hbound).1 (hnodup1 hnodup) hb1match
            obtain ⟨cids2, b2, hbuild2, hf2, hb2next, hb2S, ⟨Δb2, hΔb2⟩, hb2match⟩ := hsim2
            refine ⟨(k, rid1) :: cids2, b2, ?_, ?_, hb2next, hb2S,
              ⟨Δb1 ++ Δb2, by rw [hΔb2, hΔb1, List.append_assoc]⟩, hb2match⟩
            · rw [buildChildren, hbuild1]
              simp [hbuild2]
            · refine List.Forall₂.cons ⟨rfl, ?_⟩ hf2
              obtain ⟨-, ⟨Δr2, hΔr2, -⟩, -⟩ := hinv2
              rw [hΔr2]
              exact alook_append_left halook1
    exact ⟨hv, hc⟩

/-! ### The assembled round trip -/

/-- Core of the round trip: on a well-formed graph, split succeeds, merge of
its output succeeds, and the final reference map witnesses a pointwise
correspondence between every visited original node and a reconstructed store
entry. -/
theorem round_trip_core (G : Graph) (h : wfGraph G) :
    ∃ (D : NodeDef) (sfin : SplitSt) (rid : Id) (bfin : BuildSt),
      splitRun G = some (D, sfin) ∧
      split G = some (D, sfin.flat) ∧
      merge D sfin.flat = .ok ⟨bfin.store, rid⟩ ∧
      alook G.root sfin.refmap = some rid ∧
      (∀ oid idx, alook oid sfin.refmap = some idx →
        ∃ c c2, alook oid G.store = some c ∧ alook idx bfin.store = some c2 ∧
          ContMatch sfin.refmap c c2) := by
  obtain ⟨r, hr⟩ := Option.isSome_iff_exists.mp (split_total h)
  obtain ⟨D, sfin⟩ := r
  have hsplit : split G = some (D, sfin.flat) := by
    unfold split
    rw [hr]
    rfl
  have hinv := (visit_inv (splitFuel G)).1 [] G.root (initSplitSt G) D sfin hr
  obtain ⟨hstore, ⟨Δr, hΔr, -⟩, -, hknodup, hbounds, ⟨Δf, hΔf, hpaths, -⟩⟩ := hinv
  have hS : sfin.flat = Δf := by
    rw [hΔf]
    rfl
  have hpathok : leafPaths [] D = (sfin.flat).map Prod.fst := by
    rw [hS, hpaths]
  have hb0 := hbounds (by simp [initSplitSt])
  have hfinnodup : (sfin.refmap.map Prod.fst).Nodup := hknodup (by simp [initSplitSt])
  have hfinbound : ∀ x ∈ sfin.refmap.map Prod.snd, x < sfin.next := hb0.1
  have hfinvnodup : (sfin.refmap.map Prod.snd).Nodup := hb0.2 (by simp [initSplitSt])
  have hsim := (visit_build_sim G sfin.flat (splitFuel G)).1 [] G.root (initSplitSt G)
    D sfin ⟨[], sfin.flat, 0⟩ hr rfl rfl (by simp [initSplitSt]) ⟨[], by simp⟩
    (by simp [initSplitSt]) (by simp [initSplitSt]) (by simp)
  obtain ⟨rid, bfin, hbuild, halookroot, hbnext, hbS, -, hbmatch⟩ := hsim
  have hclosure := (build_closure (sizeOf D + 1)).1 D ⟨[], sfin.flat, 0⟩ rid bfin
    (by omega) hbuild
  obtain ⟨hcn, hcr, Δ, hcst, hcb, hccomp, hcnd⟩ := hclosure
  have hstoreΔ : bfin.store = Δ := by
    rw [hcst]
    rfl
  have hmerge : merge D sfin.flat = .ok ⟨bfin.store, rid⟩ := by
    unfold merge
    rw [if_pos hpathok, hbuild]
  refine ⟨D, sfin, rid, bfin, hr, hsplit, hmerge, halookroot, ?_⟩
  intro oid idx halook
  have hidxlt : idx < bfin.next := by
    have := hfinbound idx (alook_mem_vals halook)
    omega
  have hidxmem : idx ∈ Δ.map Prod.fst := hccomp idx (Nat.zero_le idx) hidxlt
  obtain ⟨e, heΔ, hefst⟩ := List.mem_map.mp hidxmem
  have hestore : e ∈ bfin.store := by
    rw [hstoreΔ]
    exact heΔ
  have halookidx : alook idx bfin.store = some e.2 := by
    apply alook_of_mem_nodup
    · rw [hstoreΔ]
      exact hcnd
    · rw [← hefst]
      exact hestore
  obtain ⟨oid2, c, halook2, hGc, hmatchc⟩ := hbmatch e hestore
  rw [hefst] at halook2
  have hoe : oid2 = oid := alook_inj hfinvnodup halook2 halook
  subst hoe
  exact ⟨c, e.2, hGc, halookidx, hmatchc⟩

/-! ### Path correspondence between a graph and its reconstruction -/

/-- Pointwise correspondence between the reachable part of `G` and the
reconstructed graph `G2`, mediated by the reference map ρ. -/
def PointMatch (G : Graph) (ρ : List (Id × Nat)) (G2 : Graph) : Prop :=
  ∀ oid idx, alook oid ρ = some idx →
    ∃ c c2, alook oid G.store = some c ∧ alook idx G2.store = some c2 ∧
      ContMatch ρ c c2

theorem forall2_keys {ρ : List (Id × Nat)} {ch ch2 : List (String × Id)}
    (h : List.Forall₂ (fun (a : String × Id) (a2 : String × Id) =>
      a2.1 = a.1 ∧ alook a.2 ρ = some a2.2) ch ch2) :
    ch2.map Prod.fst = ch.map Prod.fst := by
  induction h with
  | nil => rfl
  | cons hab htail ih => simp [ih, hab.1]

theorem forall2_alook_fwd {ρ : List (Id × Nat)} {ch ch2 : List (String × Id)}
    (h : List.Forall₂ (fun (a : String × Id) (a2 : String × Id) =>
      a2.1 = a.1 ∧ alook a.2 ρ = some a2.2) ch ch2)
    {k : String} {cid : Id} (hl : alook k ch = some cid) :
    ∃ cid2, alook k ch2 = some cid2 ∧ alook cid ρ = some cid2 := by
  induction h with
  | nil => simp [alook] at hl
  | cons hab htail ih =>
    rename_i a a2 l1 l2
    obtain ⟨ha1, ha2⟩ := hab
    obtain ⟨ak, av⟩ := a
    obtain ⟨bk, bv⟩ := a2
    simp only at ha1 ha2
    subst ha1
    by_cases hk : bk = k
    · subst hk
      simp [alook] at hl ⊢
      subst hl
      exact ha2
    · simp [alook, hk] at hl ⊢
      exact ih hl

theorem forall2_alook_back {ρ : List (Id × Nat)} {ch ch2 : List (String × Id)}
    (h : List.Forall₂ (fun (a : String × Id) (a2 : String × Id) =>
      a2.1 = a.1 ∧ alook a.2 ρ = some a2.2) ch ch2)
    {k : String} {cid2 : Id} (hl : alook k ch2 = some cid2) :
    ∃ cid, alook k ch = some cid ∧ alook cid ρ = some cid2 := by
  induction h with
  | nil => simp [alook] at hl
  | cons hab htail ih =>
    rename_i a a2 l1 l2
    obtain ⟨ha1, ha2⟩ := hab
    obtain ⟨ak, av⟩ := a
    obtain ⟨bk, bv⟩ := a2
    simp only at ha1 ha2
    subst ha1
    by_cases hk : bk = k
    · subst hk
      simp [alook] at hl ⊢
      subst hl
      exact ha2
    · simp [alook, hk] at hl ⊢
      exact ih hl

theorem resolve_fwd {G : Graph} {ρ : List (Id × Nat)} {G2 : Graph}
    (hsim : PointMatch G ρ G2) :
    ∀ (p : Path) (oid idx : Id), alook oid ρ = some idx →
      ∀ tgt, resolveFrom G.store oid p = some tgt →
        ∃ j, alook tgt ρ = some j ∧ resolveFrom G2.store idx p = some j := by
  intro p
  induction p with
  | nil =>
    intro oid idx halook tgt hres
    simp [resolveFrom] at hres
    subst hres
    exact ⟨idx, halook, by simp [resolveFrom]⟩
  | cons k rest ih =>
    intro oid idx halook tgt hres
    rw [resolveFrom] at hres
    split at hres
    · rename_i st ch hoc
      split at hres
      · rename_i cid hkc
        obtain ⟨c, c2, hGc, hG2c, hmatch⟩ := hsim oid idx halook
        rw [hoc] at hGc
        injection hGc with hGc
        subst hGc
        cases c2 with
        | leaf v2 => exact absurd hmatch (by simp [ContMatch])
        | node st2 ch2 =>
          obtain ⟨hst2, hf2⟩ := hmatch
          subst hst2
          obtain ⟨cid2, hkc2, hcidρ⟩ := forall2_alook_fwd hf2 hkc
          obtain ⟨j, hj1, hj2⟩ := ih cid cid2 hcidρ tgt hres
          refine ⟨j, hj1, ?_⟩
          have hstep : resolveFrom G2.store idx (k :: rest)
              = resolveFrom G2.store cid2 rest := by
            rw [resolveFrom, hG2c]
            simp [hkc2]
          rw [hstep]
          exact hj2
      · simp at hres
    · simp at hres

theorem resolve_back {G : Graph} {ρ : List (Id × Nat)} {G2 : Graph}
    (hsim : PointMatch G ρ G2) :
    ∀ (p : Path) (oid idx : Id), alook oid ρ = some idx →
      ∀ j, resolveFrom G2.store idx p = some j →
        ∃ tgt, resolveFrom G.store oid p = some tgt ∧ alook tgt ρ = some j := by
  intro p
  induction p with
  | nil =>
    intro oid idx halook j hres
    simp [resolveFrom] at hres
    subst hres
    exact ⟨oid, by simp [resolveFrom], halook⟩
  | cons k rest ih =>
    intro oid idx halook j hres
    rw [resolveFrom] at hres
    split at hres
    · rename_i st2 ch2 hoc2
      split at hres
      · rename_i cid2 hkc2
        obtain ⟨c, c2, hGc, hG2c, hmatch⟩ := hsim oid idx halook
        rw [hoc2] at hG2c
        injection hG2c with hG2c
        subst hG2c
        cases c with
        | leaf v => exact absurd hmatch (by simp [ContMatch])
        | node st ch =>
          obtain ⟨hst2, hf2⟩ := hmatch
          subst hst2
          obtain ⟨cid, hkc, hcidρ⟩ := forall2_alook_back hf2 hkc2
          obtain ⟨tgt, ht1, ht2⟩ := ih cid cid2 hcidρ j hres
          refine ⟨tgt, ?_, ht2⟩
          have hstep : resolveFrom G.store oid (k :: rest)
              = resolveFrom G.store cid rest := by
            rw [resolveFrom, hGc]
            simp [hkc]
          rw [hstep]
          exact ht1
      · simp at hres
    · simp at hres

/-! ### Claim theorems -/

/-- C1: for every graph G (including graphs with shared sub-objects and
reference cycles), merge applied to the (GraphDef, GraphState) pair produced
by split(G) yields a graph structurally equal to G — same leaf values, leaf
metadata, static attributes and child layout at every structural path — and
every shared-reference and cycle relationship is preserved: an object
reachable via two distinct paths in G is, after merge, the same single
reconstructed object via both corresponding paths. -/
theorem c1_round_trip (G : Graph) (h : wfGraph G) :
    ∃ (D : NodeDef) (S : GraphState) (G2 : Graph),
      split G = some (D, S) ∧
      merge D S = Except.ok G2 ∧
      (∀ p : Path, leafValueAt G2 p = leafValueAt G p) ∧
      (∀ p : Path, leafMetaAt G2 p = leafMetaAt G p) ∧
      (∀ p : Path, staticsAt G2 p = staticsAt G p) ∧
      (∀ p : Path, childKeysAt G2 p = childKeysAt G p) ∧
      (∀ p q tgt, resolvePath G p = some tgt → resolvePath G q = some tgt →
        ∃ t2, resolvePath G2 p = some t2 ∧ resolvePath G2 q = some t2) := by
  obtain ⟨D, sfin, rid, bfin, hrun, hsplit, hmerge, halookroot, hsim⟩ :=
    round_trip_core G h
  set ρ := sfin.refmap with hρ
  set G2 : Graph := ⟨bfin.store, rid⟩ with hG2
  have hpm : PointMatch G ρ G2 := hsim
  have hcase : ∀ p : Path,
      (resolvePath G p = none ∧ resolvePath G2 p = none) ∨
      (∃ tgt j, resolvePath G p = some tgt ∧ alook tgt ρ = some j ∧
        resolvePath G2 p = some j) := by
    intro p
    cases hres : resolvePath G p with
    | some tgt =>
      right
      obtain ⟨j, hj1, hj2⟩ := resolve_fwd hpm p G.root rid halookroot tgt hres
      exact ⟨tgt, j, rfl, hj1, hj2⟩
    | none =>
      left
      refine ⟨rfl, ?_⟩
      cases hres2 : resolvePath G2 p with
      | some j =>
        obtain ⟨tgt, ht1, -⟩ := resolve_back hpm p G.root rid halookroot j hres2
        unfold resolvePath at hres
        rw [ht1] at hres
        exact absurd hres (by simp)
      | none => rfl
  have hnodecase : ∀ p : Path,
      (nodeAt G p = none ∧ nodeAt G2 p = none) ∨
      (∃ c c2, nodeAt G p = some c ∧ nodeAt G2 p = some c2 ∧
        ContMatch ρ c c2) := by
    intro p
    rcases hcase p with ⟨h1, h2⟩ | ⟨tgt, j, h1, h2, h3⟩
    · left
      unfold nodeAt
      rw [h1, h2]
      exact ⟨rfl, rfl⟩
    · right
      obtain ⟨c, c2, hc, hc2, hm⟩ := hpm tgt j h2
      refine ⟨c, c2, ?_, ?_, hm⟩
      · unfold nodeAt
        rw [h1]
        exact hc
      · unfold nodeAt
        rw [h3]
        exact hc2
  refine ⟨D, sfin.flat, G2, hsplit, hmerge, ?_, ?_, ?_, ?_, ?_⟩
  · intro p
    rcases hnodecase p with ⟨h1, h2⟩ | ⟨c, c2, h1, h2, hm⟩
    · unfold leafValueAt
      rw [h1, h2]
    · unfold leafValueAt
      rw [h1, h2]
      cases c with
      | leaf v =>
        cases c2 with
        | leaf v2 => rw [show v2 = v from hm]
        | node st2 ch2 => exact absurd hm (by simp [ContMatch])
      | node st ch =>
        cases c2 with
        | leaf v2 => exact absurd hm (by simp [ContMatch])
        | node st2 ch2 => rfl
  · intro p
    rcases hnodecase p with ⟨h1, h2⟩ | ⟨c, c2, h1, h2, hm⟩
    · unfold leafMetaAt
      rw [h1, h2]
    · unfold leafMetaAt
      rw [h1, h2]
      cases c with
      | leaf v =>
        cases c2 with
        | leaf v2 => rw [show v2 = v from hm]
        | node st2 ch2 => exact absurd hm (by simp [ContMatch])
      | node st ch =>
        cases c2 with
        | leaf v2 => exact absurd hm (by simp [ContMatch])
        | node st2 ch2 => rfl
  · intro p
    rcases hnodecase p with ⟨h1, h2⟩ | ⟨c, c2, h1, h2, hm⟩
    · unfold staticsAt
      rw [h1, h2]
    · unfold staticsAt
      rw [h1, h2]
      cases c with
      | leaf v =>
        cases c2 with
        | leaf v2 => rfl
        | node st2 ch2 => exact absurd hm (by simp [ContMatch])
      | node st ch =>
        cases c2 with
        | leaf v2 => exact absurd hm (by simp [ContMatch])
        | node st2 ch2 => rw [show st2 = st from hm.1]
  · intro p
    rcases hnodecase p with ⟨h1, h2⟩ | ⟨c, c2, h1, h2, hm⟩
    · unfold childKeysAt
      rw [h1, h2]
    · unfold childKeysAt
      rw [h1, h2]
      cases c with
      | leaf v =>
        cases c2 with
        | leaf v2 => rfl
        | node st2 ch2 => exact absurd hm (by simp [ContMatch])
      | node st ch =>
        cases c2 with
        | leaf v2 => exact absurd hm (by simp [ContMatch])
        | node st2 ch2 =>
          show some (ch2.map Prod.fst) = some (ch.map Prod.fst)
          rw [forall2_keys hm.2]
  · intro p q tgt hp hq
    obtain ⟨j1, hj1a, hj1b⟩ := resolve_fwd hpm p G.root rid halookroot tgt hp
    obtain ⟨j2, hj2a, hj2b⟩ := resolve_fwd hpm q G.root rid halookroot tgt hq
    have hj : j1 = j2 := by
      rw [hj1a] at hj2a
      injection hj2a
    exact ⟨j1, hj1b, hj ▸ hj2b⟩

/-- C2: for every descriptor D and flat state S, merge(D, S) fails with a
StructuralMismatch error whenever S's path set is a strict subset or a
strict superset of D's expected leaf paths; the state is never silently
padded or truncated to fit, and merge succeeds only on an exact path-set
match. -/
theorem c2_path_set_exactness :
    (∀ (D : NodeDef) (S : GraphState),
      ((S.map Prod.fst ⊆ leafPaths [] D ∧ ¬ leafPaths [] D ⊆ S.map Prod.fst) ∨
       (leafPaths [] D ⊆ S.map Prod.fst ∧ ¬ S.map Prod.fst ⊆ leafPaths [] D)) →
      merge D S = Except.error GraphError.structuralMismatch) ∧
    (∀ (D : NodeDef) (S : GraphState) (G2 : Graph),
      merge D S = Except.ok G2 → leafPaths [] D = S.map Prod.fst) := by
  constructor
  · intro D S hsub
    unfold merge
    rw [if_neg]
    intro heq
    rcases hsub with ⟨h1, h2⟩ | ⟨h1, h2⟩
    · exact h2 (by rw [heq]; exact List.Subset.refl _)
    · exact h2 (by rw [heq]; exact List.Subset.refl _)
  · intro D S G2 hok
    unfold merge at hok
    by_cases heq : leafPaths [] D = S.map Prod.fst
    · exact heq
    · rw [if_neg heq] at hok
      exact absurd hok (by simp)

/-- C5: split has no side effect on its input: the store borrowed by the
walk is returned untouched by every walk step and by the full split run (no
node, child layout, static attribute or leaf value is mutated). -/
theorem c5_split_no_mutation :
    (∀ fuel p i s r, visit fuel p i s = some r → r.2.store = s.store) ∧
    (∀ fuel p cs s r, visitChildren fuel p cs s = some r → r.2.store = s.store) ∧
    (∀ G r, splitRun G = some r → r.2.store = G.store) := by
  refine ⟨?_, ?_, ?_⟩
  · intro fuel p i s r hr
    obtain ⟨d, s'⟩ := r
    exact ((visit_inv fuel).1 p i s d s' hr).1
  · intro fuel p cs s r hr
    obtain ⟨ds, s'⟩ := r
    exact ((visit_inv fuel).2 p cs s ds s' hr).1
  · intro G r hr
    obtain ⟨d, s'⟩ := r
    exact ((visit_inv (splitFuel G)).1 [] G.root (initSplitSt G) d s' hr).1

/-- C7: merge is atomic with respect to failure: for every descriptor and
state, either the call signals an error and returns no graph, or it returns
a fully reconstructed well-formed graph — in particular one with no dangling
unresolved back-references (every child identity resolves in the returned
store). There is no partial-success mode. -/
theorem c7_merge_atomic :
    ∀ (D : NodeDef) (S : GraphState),
      (∃ e, merge D S = Except.error e) ∨
      (∃ G2, merge D S = Except.ok G2 ∧ wfGraph G2) := by
  intro D S
  unfold merge
  by_cases hpaths : leafPaths [] D = S.map Prod.fst
  · rw [if_pos hpaths]
    cases hb : build D ⟨[], S, 0⟩ with
    | error e => exact Or.inl ⟨e, rfl⟩
    | ok r =>
      obtain ⟨rid, b2⟩ := r
      right
      refine ⟨⟨b2.store, rid⟩, rfl, ?_⟩
      have hclosure := (build_closure (sizeOf D + 1)).1 D ⟨[], S, 0⟩ rid b2
        (by omega) hb
      obtain ⟨hcn, hcr, Δ, hcst, hcb, hccomp, hcnd⟩ := hclosure
      have hstoreΔ : b2.store = Δ := by
        rw [hcst]
        rfl
      refine ⟨?_, ?_, ?_⟩
      · show (List.map Prod.fst b2.store).Nodup
        rw [hstoreΔ]
        exact hcnd
      · show rid ∈ List.map Prod.fst b2.store
        rw [hstoreΔ]
        exact hccomp rid (Nat.zero_le rid) hcr
      · intro e he cid hcid
        rw [hstoreΔ] at he
        obtain ⟨-, helt, hch⟩ := hcb e he
        show cid ∈ List.map Prod.fst b2.store
        rw [hstoreΔ]
        exact hccomp cid (Nat.zero_le cid) (hch cid hcid)
  · rw [if_neg hpaths]
    exact Or.inl ⟨.structuralMismatch, rfl⟩

/-- C8: for every graph containing no leaf Variables, split succeeds and
returns a valid descriptor paired with an empty flat state (and merge
accepts that pair); an empty graph is not an error case for split. -/
theorem c8_empty_graph (G : Graph) (h : wfGraph G) (hnl : noLeaves G.store) :
    ∃ D : NodeDef, split G = some (D, []) ∧
      ∃ G2, merge D [] = Except.ok G2 := by
  obtain ⟨D, sfin, rid, bfin, hrun, hsplit, hmerge, -, -⟩ := round_trip_core G h
  have hinv := (visit_inv (splitFuel G)).1 [] G.root (initSplitSt G) D sfin hrun
  obtain ⟨-, -, -, -, -, ⟨Δf, hΔf, -, hemp⟩⟩ := hinv
  have hflat : sfin.flat = [] := by
    rw [hΔf, hemp hnl]
    rfl
  rw [hflat] at hsplit hmerge
  exact ⟨D, hsplit, ⟨bfin.store, rid⟩, hmerge⟩

/-- A graph whose root directly references itself. -/
def selfLoopG : Graph := ⟨[(0, .node [] [("self", 0)])], 0⟩

/-- A two-node cycle: A references B and B references A. -/
def abG : Graph := ⟨[(0, .node [] [("b", 1)]), (1, .node [] [("a", 0)])], 0⟩

/-- The graph merge reconstructs from the split of `abG`. -/
def abG2 : Graph := ⟨[(1, .node [] [("a", 0)]), (0, .node [] [("b", 1)])], 0⟩

/-- C4: split terminates on every well-formed graph, including graphs with
self-references and cycles; on revisiting an identity already recorded in
the walk's reference map it stops descending and emits a back-reference
token with the walk state unchanged; and merge of the result reconstructs
an equivalent cyclic structure (following the cycle edge of the
reconstructed graph leads back to its root). -/
theorem c4_cycle_termination :
    (∀ G : Graph, wfGraph G → (split G).isSome) ∧
    (∀ (fuel : Nat) (p : Path) (i : Id) (s : SplitSt) (idx : Nat),
      alook i s.refmap = some idx →
      visit (fuel + 1) p i s = some (.ref idx, s)) ∧
    (split selfLoopG = some (.nodeDef 0 [] [("self", .ref 0)], []) ∧
      merge (.nodeDef 0 [] [("self", .ref 0)]) [] = Except.ok selfLoopG ∧
      resolvePath selfLoopG ["self"] = some selfLoopG.root) ∧
    (split abG = some
        (.nodeDef 0 [] [("b", .nodeDef 1 [] [("a", .ref 0)])], []) ∧
      merge (.nodeDef 0 [] [("b", .nodeDef 1 [] [("a", .ref 0)])]) [] =
        Except.ok abG2 ∧
      resolvePath abG2 ["b", "a"] = some abG2.root) := by
  refine ⟨?_, ?_, ⟨?_, ?_, rfl⟩, ⟨?_, ?_, rfl⟩⟩
  · intro G hG
    unfold split
    obtain ⟨r, hr⟩ := Option.isSome_iff_exists.mp (split_total hG)
    rw [hr]
    rfl
  · intro fuel p i s idx h
    rw [visit, h]
  · simp [split, splitRun, splitFuel, initSplitSt, visit, visitChildren, alook,
      selfLoopG]
  · simp [merge, leafPaths, leafPathsChildren, build, buildChildren, selfLoopG]
  · simp [split, splitRun, splitFuel, initSplitSt, visit, visitChildren, alook, abG]
  · simp [merge, leafPaths, leafPathsChildren, build, buildChildren, abG2]

set_option maxRecDepth 10000 in
/-- C9 (evaluation of the code at the failing input): the module binds
`VariableState = Variable` in its globals (line 192), so normal attribute
access on the package returns the Variable class directly from the globals
and never invokes the `__getattr__` fallback — no DeprecationWarning is
emitted, even though the fallback's warning branch (lines 198-205) would
warn if it were reached. The deprecation shim is dead code for normal
attribute access, contradicting the documented intent that accessing the
deprecated alias warns. -/
theorem c9_variablestate_no_warning :
    moduleAttr nnxGlobals "VariableState"
      = ([], Except.ok "flax.nnx.variablelib.Variable") ∧
    alook "VariableState" nnxGlobals = some "flax.nnx.variablelib.Variable" ∧
    (dunderGetattr nnxGlobals "VariableState").1 =
      [⟨"DeprecationWarning",
        "VariableState was removed, this is just an alias to Variable. " ++
          "Plase use Variable directly instead."⟩] := by
  refine ⟨?_, ?_, ?_⟩ <;> rfl

/-- C10: for every attribute name not bound in the module globals, the
fallback `__getattr__` raises AttributeError identifying the module and the
missing name rather than returning a default; for every bound name, both the
fallback and normal module attribute access return exactly the bound
object. -/
theorem c10_getattr_fallback :
    ∀ name : String,
      (alook name nnxGlobals = none →
        (dunderGetattr nnxGlobals name).2 =
          Except.error ("Module flax.nnx has no attribute " ++ name)) ∧
      (∀ v, alook name nnxGlobals = some v →
        (dunderGetattr nnxGlobals name).2 = Except.ok v ∧
        (moduleAttr nnxGlobals name).2 = Except.ok v) := by
  intro name
  constructor
  · intro hnone
    unfold dunderGetattr
    rw [hnone]
  · intro v hsome
    unfold dunderGetattr moduleAttr
    rw [hsome]
    exact ⟨rfl, rfl⟩

/-- Witness for C10 at two concrete names: an unbound name raises the
AttributeError and a bound name returns the bound object. -/
theorem c10_getattr_fallback_witness :
    alook "no_such_attribute" nnxGlobals = none ∧
    (dunderGetattr nnxGlobals "no_such_attribute").2 =
      Except.error ("Module flax.nnx has no attribute " ++ "no_such_attribute") ∧
    alook "Variable" nnxGlobals = some "flax.nnx.variablelib.Variable" ∧
    (moduleAttr nnxGlobals "Variable").2 =
      Except.ok "flax.nnx.variablelib.Variable" :=
  ⟨by decide, (c10_getattr_fallback "no_such_attribute").1 (by decide), by decide,
    ((c10_getattr_fallback "Variable").2 "flax.nnx.variablelib.Variable" (by decide)).2⟩

/-! ### The no-op write-back -/

theorem storeWrite_self {st : Store} {id : Id} {c : NodeContent}
    (h : alook id st = some c) : storeWrite id c st = st := by
  induction st with
  | nil => simp [storeWrite]
  | cons e rest ih =>
    obtain ⟨i, c0⟩ := e
    by_cases hi : i = id
    · subst hi
      simp [alook] at h
      simp [storeWrite, h]
    · simp [alook, hi] at h
      simp [storeWrite, hi, ih h]

/-- Simulation of the in-place update walk against the split walk: writing
back the very values the split walk collects leaves the store untouched at
every step. -/
theorem visit_update_sim (G : Graph) (S : GraphState) :
    ∀ fuel : Nat,
      (∀ p i s d s' u, visit fuel p i s = some (d, s') →
        s.store = G.store →
        u.store = G.store →
        (∀ x, x ∈ u.visited ↔ x ∈ s.refmap.map Prod.fst) →
        S = s.flat ++ u.rest →
        (∃ t2, S = s'.flat ++ t2) →
        ∃ u', upVisit fuel p i u = some u' ∧
          u'.store = G.store ∧
          (∀ x, x ∈ u'.visited ↔ x ∈ s'.refmap.map Prod.fst) ∧
          S = s'.flat ++ u'.rest) ∧
      (∀ p cs s ds s' u, visitChildren fuel p cs s = some (ds, s') →
        s.store = G.store →
        u.store = G.store →
        (∀ x, x ∈ u.visited ↔ x ∈ s.refmap.map Prod.fst) →
        S = s.flat ++ u.rest →
        (∃ t2, S = s'.flat ++ t2) →
        ∃ u', upChildren fuel p cs u = some u' ∧
          u'.store = G.store ∧
          (∀ x, x ∈ u'.visited ↔ x ∈ s'.refmap.map Prod.fst) ∧
          S = s'.flat ++ u'.rest) := by
  intro fuel
  induction fuel with
  | zero =>
    constructor
    · intro p i s d s' u h
      simp [visit] at h
    · intro p cs s ds s' u h h1 h2 h3 h4 h5
      cases cs with
      | nil =>
        simp [visitChildren] at h
        obtain ⟨hd, hs⟩ := h
        subst hd hs
        exact ⟨u, by rw [upChildren], h2, h3, h4⟩
      | cons c rest =>
        obtain ⟨k, cid⟩ := c
        simp [visitChildren, visit] at h
  | succ f ih =>
    have hv : ∀ p i s d s' u, visit (f + 1) p i s = some (d, s') →
        s.store = G.store →
        u.store = G.store →
        (∀ x, x ∈ u.visited ↔ x ∈ s.refmap.map Prod.fst) →
        S = s.flat ++ u.rest →
        (∃ t2, S = s'.flat ++ t2) →
        ∃ u', upVisit (f + 1) p i u = some u' ∧
          u'.store = G.store ∧
          (∀ x, x ∈ u'.visited ↔ x ∈ s'.refmap.map Prod.fst) ∧
          S = s'.flat ++ u'.rest := by
      intro p i s d s' u h hstore hustore hvis hS hS'
      rw [visit] at h
      split at h
      · -- revisit: skipped by update as well
        rename_i idx hrm
        simp at h
        obtain ⟨hd, hs⟩ := h
        subst hd hs
        have hmem : i ∈ u.visited :=
          (hvis i).mpr (List.mem_map.mpr ⟨(i, idx), alook_mem hrm, rfl⟩)
        refine ⟨u, ?_, hustore, hvis, hS⟩
        rw [upVisit, if_pos hmem]
      · rename_i hrm
        have hnotmem : i ∉ u.visited := fun hmem =>
          (alook_eq_none_iff.mp hrm) ((hvis i).mp hmem)
        split at h
        · simp at h
        · -- leaf: the popped entry carries the leaf's current value
          rename_i v hst
          simp at h
          obtain ⟨hd, hs⟩ := h
          subst hd hs
          obtain ⟨t2, ht2⟩ := hS'
          have hrest : u.rest = (p, v.value) :: t2 := by
            have heq2 : s.flat ++ u.rest = s.flat ++ ([(p, v.value)] ++ t2) := by
              rw [← hS]
              rw [ht2]
              simp
            have := List.append_cancel_left heq2
            simpa using this
          have hlook : alook i u.store = some (.leaf v) := by
            rw [hustore, ← hstore]
            exact hst
          have hwrite : storeWrite i (.leaf ⟨v.value, v.metadata⟩) u.store = u.store :=
            storeWrite_self hlook
          refine ⟨⟨u.store, i :: u.visited, t2⟩, ?_, hustore, ?_, ht2⟩
          · rw [upVisit, if_neg hnotmem, hlook, hrest]
            simp [hwrite]
          · intro x
            simp only [List.mem_cons, List.map_append, List.mem_append]
            rw [hvis x]
            simp [or_comm]
        · -- container node
          rename_i statics children hst
          split at h
          · simp at h
          · rename_i cdefs s2 hch
            simp at h
            obtain ⟨hd, hs⟩ := h
            subst hd hs
            have hlook : alook i u.store = some (.node statics children) := by
              rw [hustore, ← hstore]
              exact hst
            have hsim := ih.2 p children
              { store := s.store, refmap := s.refmap ++ [(i, s.next)],
                next := s.next + 1, flat := s.flat }
              cdefs s2 ⟨u.store, i :: u.visited, u.rest⟩ hch hstore hustore
              (by
                intro x
                show x ∈ i :: u.visited ↔ _
                simp only [List.mem_cons, List.map_append, List.mem_append]
                rw [hvis x]
                simp [or_comm])
              hS hS'
            obtain ⟨u', hup, hu1, hu2, hu3⟩ := hsim
            refine ⟨u', ?_, hu1, hu2, hu3⟩
            rw [upVisit, if_neg hnotmem, hlook]
            exact hup
    have hc : ∀ p cs s ds s' u, visitChildren (f + 1) p cs s = some (ds, s') →
        s.store = G.store →
        u.store = G.store →
        (∀ x, x ∈ u.visited ↔ x ∈ s.refmap.map Prod.fst) →
        S = s.flat ++ u.rest →
        (∃ t2, S = s'.flat ++ t2) →
        ∃ u', upChildren (f + 1) p cs u = some u' ∧
          u'.store = G.store ∧
          (∀ x, x ∈ u'.visited ↔ x ∈ s'.refmap.map Prod.fst) ∧
          S = s'.flat ++ u'.rest := by
      intro p cs
      induction cs with
      | nil =>
        intro s ds s' u h h1 h2 h3 h4 h5
        simp [visitChildren] at h
        obtain ⟨hd, hs⟩ := h
        subst hd hs
        exact ⟨u, by rw [upChildren], h2, h3, h4⟩
      | cons c rest ihc =>
        obtain ⟨k, cid⟩ := c
        intro s ds s' u h hstore hustore hvis hS hS'
        rw [visitChildren] at h
        split at h
        · simp at h
        · rename_i d1 s1 hv1
          split at h
          · simp at h
          · rename_i ds2 s2 hv2
            simp at h
            obtain ⟨hd, hs⟩ := h
            subst hd hs
            have hinv2 := (visit_inv (f + 1)).2 p rest s1 ds2 s2 hv2
            have hS1 : ∃ t2, S = s1.flat ++ t2 := by
              obtain ⟨-, -, -, -, -, ⟨Δf2, hΔf2, -⟩⟩ := hinv2
              obtain ⟨t2, ht2⟩ := hS'
              exact ⟨Δf2 ++ t2, by rw [ht2, hΔf2, List.append_assoc]⟩
            obtain ⟨u1, hup1, hu1a, hu1b, hu1c⟩ :=
              hv (p ++ [k]) cid s d1 s1 u hv1 hstore hustore hvis hS hS1
            have hst1 : s1.store = G.store := by
              have := ((visit_inv (f + 1)).1 (p ++ [k]) cid s d1 s1 hv1).1
              rw [this]
              exact hstore
            obtain ⟨u2, hup2, hu2a, hu2b, hu2c⟩ :=
              ihc s1 ds2 s2 u1 hv2 hst1 hu1a hu1b hu1c hS'
            refine ⟨u2, ?_, hu2a, hu2b, hu2c⟩
            rw [upChildren, hup1]
            exact hup2
    exact ⟨hv, hc⟩

/-- C6: the no-op write-back `update(G, state(G))` leaves G observably
unchanged — it returns the very same graph, so every leaf value, static
attribute, and the structure and aliasing of G are identical after the
call. -/
theorem c6_update_noop (G : Graph) (h : wfGraph G) :
    ∃ S : GraphState, state G = some S ∧ update G S = some G := by
  obtain ⟨r, hr⟩ := Option.isSome_iff_exists.mp (split_total h)
  obtain ⟨D, sfin⟩ := r
  have hstate : state G = some sfin.flat := by
    unfold state split
    rw [hr]
    rfl
  have hsim := (visit_update_sim G sfin.flat (splitFuel G)).1 [] G.root
    (initSplitSt G) D sfin ⟨G.store, [], sfin.flat⟩ hr rfl rfl
    (by simp [initSplitSt]) (by simp [initSplitSt]) ⟨[], by simp⟩
  obtain ⟨u', hup, hu1, -, hu3⟩ := hsim
  have hrest : u'.rest = [] := by
    have heq2 : sfin.flat ++ ([] : GraphState) = sfin.flat ++ u'.rest := by
      rw [← hu3]
      simp
    have := List.append_cancel_left heq2
    exact this.symm
  refine ⟨sfin.flat, hstate, ?_⟩
  unfold update
  rw [hup]
  simp [hrest, hu1]

/-! ### Descriptor determinism under leaf-value-only differences -/

/-- Pointwise check that a child list equals another with identities renamed
by σ and keys identical, in order. -/
def childShapeB (σ : Id → Id) : List (String × Id) → List (String × Id) → Bool
  | [], [] => true
  | (k, i) :: r, (k2, i2) :: r2 =>
    decide (k2 = k) && decide (i2 = σ i) && childShapeB σ r r2
  | _, _ => false

/-- Check that two node contents have the same node kind and static
attributes, with children renamed by σ; leaf values are unconstrained (leaf
metadata, recorded in the descriptor, must agree). -/
def contentShapeB (σ : Id → Id) : NodeContent → NodeContent → Bool
  | .leaf v, .leaf v2 => decide (v2.metadata = v.metadata)
  | .node st ch, .node st2 ch2 => decide (st2 = st) && childShapeB σ ch ch2
  | _, _ => false

/-- The G2 entry corresponding to one G1 store entry under the renaming σ
exists and has the same shape. -/
def entryShapeB (σ : Id → Id) (G2 : Graph) (e : Id × NodeContent) : Bool :=
  match alook (σ e.1) G2.store with
  | some c2 => contentShapeB σ e.2 c2
  | none => false

/-- Modelled from the spec: two independently constructed graphs have
identical topology, node kinds and static attributes, differing only in
their leaf values, when a renaming σ of identities maps one onto the other:
same root, same store size, injectivity on the first store's identities, and
entrywise equal shape. -/
def shapeIso (σ : Id → Id) (G1 G2 : Graph) : Prop :=
  G2.root = σ G1.root ∧
  G2.store.length = G1.store.length ∧
  (∀ a ∈ storeKeys G1.store, ∀ b ∈ storeKeys G1.store, σ a = σ b → a = b) ∧
  (∀ e ∈ G1.store, entryShapeB σ G2 e = true)

theorem childShapeB_eq {σ : Id → Id} :
    ∀ {ch ch2 : List (String × Id)}, childShapeB σ ch ch2 = true →
      ch2 = ch.map (fun c => (c.1, σ c.2)) := by
  intro ch
  induction ch with
  | nil =>
    intro ch2 h
    cases ch2 with
    | nil => rfl
    | cons c2 r2 =>
      obtain ⟨k2, i2⟩ := c2
      simp [childShapeB] at h
  | cons c r ih =>
    obtain ⟨k, i⟩ := c
    intro ch2 h
    cases ch2 with
    | nil => simp [childShapeB] at h
    | cons c2 r2 =>
      obtain ⟨k2, i2⟩ := c2
      simp [childShapeB] at h
      obtain ⟨⟨hk, hi⟩, hr⟩ := h
      simp [hk, hi, ih hr]

theorem alook_map_refmap {σ : Id → Id} {dom : List Id}
    (hinj : ∀ a ∈ dom, ∀ b ∈ dom, σ a = σ b → a = b) :
    ∀ (rm : List (Id × Nat)) (i : Id), i ∈ dom →
      (∀ x ∈ rm.map Prod.fst, x ∈ dom) →
      alook (σ i) (rm.map fun e => (σ e.1, e.2)) = alook i rm := by
  intro rm
  induction rm with
  | nil => intro i _ _; rfl
  | cons e rest ih =>
    obtain ⟨j, x⟩ := e
    intro i hi hkeys
    have hj : j ∈ dom := hkeys j (by simp)
    by_cases hij : j = i
    · subst hij
      simp [alook]
    · have hσ : σ j ≠ σ i := fun hc => hij (hinj j hj i hi hc)
      simp only [List.map_cons, alook, if_neg hij, if_neg hσ]
      exact ih i hi (fun x hx => hkeys x (by simp [hx]))

/-- Simulation of two split walks over shape-isomorphic graphs: the walks
emit identical descriptors step for step, maintaining a σ-renamed reference
map; leaf values never influence the emitted descriptor. -/
theorem visit_shape_sim (G1 G2 : Graph) (σ : Id → Id)
    (h1 : wfGraph G1) (hiso : shapeIso σ G1 G2) :
    ∀ fuel : Nat,
      (∀ p i s d s', visit fuel p i s = some (d, s') →
        s.store = G1.store →
        i ∈ storeKeys G1.store →
        (∀ x ∈ s.refmap.map Prod.fst, x ∈ storeKeys G1.store) →
        ∀ s2 : SplitSt, s2.store = G2.store →
          s2.refmap = s.refmap.map (fun e => (σ e.1, e.2)) →
          s2.next = s.next →
          ∃ s2', visit fuel p (σ i) s2 = some (d, s2') ∧
            s2'.store = G2.store ∧
            s2'.refmap = s'.refmap.map (fun e => (σ e.1, e.2)) ∧
            s2'.next = s'.next) ∧
      (∀ p cs s ds s', visitChildren fuel p cs s = some (ds, s') →
        s.store = G1.store →
        (∀ c ∈ cs, c.2 ∈ storeKeys G1.store) →
        (∀ x ∈ s.refmap.map Prod.fst, x ∈ storeKeys G1.store) →
        ∀ s2 : SplitSt, s2.store = G2.store →
          s2.refmap = s.refmap.map (fun e => (σ e.1, e.2)) →
          s2.next = s.next →
          ∃ s2', visitChildren fuel p (cs.map fun c => (c.1, σ c.2)) s2
              = some (ds, s2') ∧
            s2'.store = G2.store ∧
            s2'.refmap = s'.refmap.map (fun e => (σ e.1, e.2)) ∧
            s2'.next = s'.next) := by
  obtain ⟨hroot, hlen, hinj, hshape⟩ := hiso
  intro fuel
  induction fuel with
  | zero =>
    constructor
    · intro p i s d s' h
      simp [visit] at h
    · intro p cs s ds s' h hstore hcs hkeys s2 h2store h2rm h2next
      cases cs with
      | nil =>
        simp [visitChildren] at h
        obtain ⟨hd, hs⟩ := h
        subst hd hs
        exact ⟨s2, by simp [visitChildren], h2store, by rw [h2rm], h2next⟩
      | cons c rest =>
        obtain ⟨k, cid⟩ := c
        simp [visitChildren, visit] at h
  | succ f ih =>
    have hv : ∀ p i s d s', visit (f + 1) p i s = some (d, s') →
        s.store = G1.store →
        i ∈ storeKeys G1.store →
        (∀ x ∈ s.refmap.map Prod.fst, x ∈ storeKeys G1.store) →
        ∀ s2 : SplitSt, s2.store = G2.store →
          s2.refmap = s.refmap.map (fun e => (σ e.1, e.2)) →
          s2.next = s.next →
          ∃ s2', visit (f + 1) p (σ i) s2 = some (d, s2') ∧
            s2'.store = G2.store ∧
            s2'.refmap = s'.refmap.map (fun e => (σ e.1, e.2)) ∧
            s2'.next = s'.next := by
      intro p i s d s' h hstore himem hkeys s2 h2store h2rm h2next
      have hmaplook : alook (σ i) s2.refmap = alook i s.refmap := by
        rw [h2rm]
        exact alook_map_refmap hinj s.refmap i himem hkeys
      rw [visit] at h
      split at h
      · rename_i idx hrm
        simp at h
        obtain ⟨hd, hs⟩ := h
        subst hd hs
        refine ⟨s2, ?_, h2store, by rw [h2rm], h2next⟩
        rw [visit, hmaplook, hrm]
      · rename_i hrm
        have hrm2 : alook (σ i) s2.refmap = none := by rw [hmaplook, hrm]
        split at h
        · simp at h
        · rename_i v hst
          have hmem1 : (i, NodeContent.leaf v) ∈ G1.store := by
            rw [hstore] at hst
            exact alook_mem hst
          have hent := hshape (i, .leaf v) hmem1
          unfold entryShapeB at hent
          cases hlook2 : alook (σ i) G2.store with
          | none => rw [hlook2] at hent; simp at hent
          | some c2 =>
            rw [hlook2] at hent
            cases c2 with
            | node st2 ch2 => simp [contentShapeB] at hent
            | leaf v2 =>
              simp [contentShapeB] at hent
              simp at h
              obtain ⟨hd, hs⟩ := h
              subst hd hs
              refine ⟨⟨s2.store, s2.refmap ++ [(σ i, s2.next)], s2.next + 1,
                s2.flat ++ [(p, v2.value)]⟩, ?_, h2store, ?_, ?_⟩
              · have hlookst : alook (σ i) s2.store = some (.leaf v2) := by
                  rw [h2store]; exact hlook2
                rw [visit]
                simp only [hrm2, hlookst]
                simp [hent, h2next]
              · simp [List.map_append, h2rm, h2next]
              · simp [h2next]
        · rename_i statics children hst
          have hmem1 : (i, NodeContent.node statics children) ∈ G1.store := by
            rw [hstore] at hst
            exact alook_mem hst
          have hent := hshape (i, .node statics children) hmem1
          unfold entryShapeB at hent
          cases hlook2 : alook (σ i) G2.store with
          | none => rw [hlook2] at hent; simp at hent
          | some c2 =>
            rw [hlook2] at hent
            cases c2 with
            | leaf v2 => simp [contentShapeB] at hent
            | node st2 ch2 =>
              simp only [contentShapeB, Bool.and_eq_true, decide_eq_true_eq] at hent
              obtain ⟨hst2, hch2⟩ := hent
              have hch2eq := childShapeB_eq hch2
              split at h
              · simp at h
              · rename_i cdefs sc hch
                simp at h
                obtain ⟨hd, hs⟩ := h
                subst hd hs
                have hcsmem : ∀ c ∈ children, c.2 ∈ storeKeys G1.store := by
                  intro c hc
                  exact h1.2.2 (i, .node statics children) hmem1 c.2
                    (List.mem_map.mpr ⟨c, hc, rfl⟩)
                have hsub := ih.2 p children
                  { store := s.store, refmap := s.refmap ++ [(i, s.next)],
                    next := s.next + 1, flat := s.flat }
                  cdefs sc hch hstore hcsmem
                  (by
                    intro x hx
                    simp only [List.map_append, List.mem_append] at hx
                    rcases hx with hx | hx
                    · exact hkeys x hx
                    · simp at hx
                      subst hx
                      exact himem)
                  ⟨s2.store, s2.refmap ++ [(σ i, s2.next)], s2.next + 1, s2.flat⟩
                  h2store
                  (by
                    simp only [List.map_append, h2rm, h2next]
                    rfl)
                  (by simp [h2next])
                obtain ⟨s2', hrun2, h2'store, h2'rm, h2'next⟩ := hsub
                refine ⟨s2', ?_, h2'store, h2'rm, ?_⟩
                · have hlookst : alook (σ i) s2.store = some (.node st2 ch2) := by
                    rw [h2store]; exact hlook2
                  rw [visit]
                  rw [h2next] at hrun2
                  simp only [hrm2, hlookst, hch2eq, h2next]
                  simp [hrun2, hst2]
                · exact h2'next
    have hc : ∀ p cs s ds s', visitChildren (f + 1) p cs s = some (ds, s') →
        s.store = G1.store →
        (∀ c ∈ cs, c.2 ∈ storeKeys G1.store) →
        (∀ x ∈ s.refmap.map Prod.fst, x ∈ storeKeys G1.store) →
        ∀ s2 : SplitSt, s2.store = G2.store →
          s2.refmap = s.refmap.map (fun e => (σ e.1, e.2)) →
          s2.next = s.next →
          ∃ s2', visitChildren (f + 1) p (cs.map fun c => (c.1, σ c.2)) s2
              = some (ds, s2') ∧
            s2'.store = G2.store ∧
            s2'.refmap = s'.refmap.map (fun e => (σ e.1, e.2)) ∧
            s2'.next = s'.next := by
      intro p cs
      induction cs with
      | nil =>
        intro s ds s' h hstore hcs hkeys s2 h2store h2rm h2next
        simp [visitChildren] at h
        obtain ⟨hd, hs⟩ := h
        subst hd hs
        exact ⟨s2, by simp [visitChildren], h2store, by rw [h2rm], h2next⟩
      | cons c rest ihc =>
        obtain ⟨k, cid⟩ := c
        intro s ds s' h hstore hcs hkeys s2 h2store h2rm h2next
        rw [visitChildren] at h
        split at h
        · simp at h
        · rename_i d1 s1 hv1
          split at h
          · simp at h
          · rename_i ds2 sc2 hv2
            simp at h
            obtain ⟨hd, hs⟩ := h
            subst hd hs
            obtain ⟨s21, hrun1, h21store, h21rm, h21next⟩ :=
              hv (p ++ [k]) cid s d1 s1 hv1 hstore
                (hcs (k, cid) (by simp)) hkeys s2 h2store h2rm h2next
            have hinv1 := (visit_inv (f + 1)).1 (p ++ [k]) cid s d1 s1 hv1
            obtain ⟨hst1, ⟨Δr1, hΔr1, hΔkeys⟩, -⟩ := hinv1
            have hkeys1 : ∀ x ∈ s1.refmap.map Prod.fst, x ∈ storeKeys G1.store := by
              intro x hx
              rw [hΔr1] at hx
              simp only [List.map_append, List.mem_append] at hx
              rcases hx with hx | hx
              · exact hkeys x hx
              · obtain ⟨e, he, hef⟩ := List.mem_map.mp hx
                subst hef
                have := (hΔkeys e he)
                rw [hstore] at this
                exact this
            obtain ⟨s22, hrun2, h22store, h22rm, h22next⟩ :=
              ihc s1 ds2 sc2 hv2 (by rw [hst1]; exact hstore)
                (fun c hcm => hcs c (by simp [hcm])) hkeys1 s21 h21store h21rm h21next
            refine ⟨s22, ?_, h22store, h22rm, h22next⟩
            rw [List.map_cons, visitChildren, hrun1]
            simp [hrun2]
    exact ⟨hv, hc⟩

/-- C3: splitting two independently constructed graphs with identical
topology, node kinds and static attributes, differing only in leaf values,
yields descriptor-equal results — the leaf values have no influence on the
descriptor. -/
theorem c3_descriptor_determinism (G1 G2 : Graph) (σ : Id → Id)
    (h1 : wfGraph G1) (hiso : shapeIso σ G1 G2) :
    graphdef G1 = graphdef G2 ∧ (graphdef G1).isSome := by
  obtain ⟨r, hr⟩ := Option.isSome_iff_exists.mp (split_total h1)
  obtain ⟨D, sfin⟩ := r
  have hsim := (visit_shape_sim G1 G2 σ h1 hiso (splitFuel G1)).1 [] G1.root
    (initSplitSt G1) D sfin hr rfl h1.2.1 (by simp [initSplitSt])
    (initSplitSt G2) rfl (by simp [initSplitSt]) rfl
  obtain ⟨s2', hrun2, -, -, -⟩ := hsim
  have hfuel : splitFuel G2 = splitFuel G1 := by
    unfold splitFuel
    rw [hiso.2.1]
  have hrun2' : splitRun G2 = some (D, s2') := by
    unfold splitRun
    rw [hfuel, hiso.1]
    exact hrun2
  constructor
  · unfold graphdef split
    rw [hr, hrun2']
    rfl
  · unfold graphdef split
    rw [hr]
    rfl

/-! ### Concrete witnesses -/

instance (σ : Id → Id) (G1 G2 : Graph) : Decidable (shapeIso σ G1 G2) := by
  unfold shapeIso; infer_instance

instance (st : Store) : Decidable (noLeaves st) := by
  unfold noLeaves; infer_instance

/-- The spec's concrete scenario: a root with a Variable leaf `linear` and
two fields `shared` and `alias` referencing the same object. -/
def sharedPairG : Graph :=
  ⟨[(0, .node [("cfg", 7)] [("linear", 1), ("shared", 2), ("alias", 2)]),
    (1, .leaf ⟨1, [("role", "param")]⟩),
    (2, .node [] [("w", 3)]),
    (3, .leaf ⟨5, []⟩)], 0⟩

theorem c1_round_trip_witness :
    wfGraph sharedPairG ∧
    ∃ (D : NodeDef) (S : GraphState) (G2 : Graph),
      split sharedPairG = some (D, S) ∧
      merge D S = Except.ok G2 ∧
      (∀ p : Path, leafValueAt G2 p = leafValueAt sharedPairG p) ∧
      (∀ p : Path, leafMetaAt G2 p = leafMetaAt sharedPairG p) ∧
      (∀ p : Path, staticsAt G2 p = staticsAt sharedPairG p) ∧
      (∀ p : Path, childKeysAt G2 p = childKeysAt sharedPairG p) ∧
      (∀ p q tgt, resolvePath sharedPairG p = some tgt →
        resolvePath sharedPairG q = some tgt →
        ∃ t2, resolvePath G2 p = some t2 ∧ resolvePath G2 q = some t2) :=
  ⟨by decide, c1_round_trip sharedPairG (by decide)⟩

theorem c2_path_set_exactness_witness :
    (([] : GraphState).map Prod.fst ⊆ leafPaths [] (.leafDef 0 []) ∧
      ¬ leafPaths [] (.leafDef 0 []) ⊆ ([] : GraphState).map Prod.fst) ∧
    merge (.leafDef 0 []) [] = Except.error GraphError.structuralMismatch :=
  ⟨⟨by simp, by simp [leafPaths]⟩,
    c2_path_set_exactness.1 (.leafDef 0 []) []
      (Or.inl ⟨by simp, by simp [leafPaths]⟩)⟩

/-- Shape-isomorphic pair differing only in leaf values (identities shifted
by ten, one leaf value 7 against 99). -/
def shapeG1 : Graph :=
  ⟨[(0, .node [("c", 1)] [("x", 1)]), (1, .leaf ⟨7, [("role", "p")]⟩)], 0⟩

def shapeG2 : Graph :=
  ⟨[(10, .node [("c", 1)] [("x", 11)]), (11, .leaf ⟨99, [("role", "p")]⟩)], 10⟩

theorem c3_descriptor_determinism_witness :
    (wfGraph shapeG1 ∧ shapeIso (fun n => n + 10) shapeG1 shapeG2) ∧
    (graphdef shapeG1 = graphdef shapeG2 ∧ (graphdef shapeG1).isSome) :=
  ⟨⟨by decide, by decide⟩,
    c3_descriptor_determinism shapeG1 shapeG2 (fun n => n + 10)
      (by decide) (by decide)⟩

theorem c4_cycle_termination_witness :
    (wfGraph selfLoopG ∧ (split selfLoopG).isSome) ∧
    (alook 5 ([(5, 2)] : List (Id × Nat)) = some 2 ∧
      visit 1 [] 5 ⟨[], [(5, 2)], 3, []⟩ = some (.ref 2, ⟨[], [(5, 2)], 3, []⟩)) :=
  ⟨⟨by decide, c4_cycle_termination.1 selfLoopG (by decide)⟩,
    ⟨by decide, c4_cycle_termination.2.1 0 [] 5 ⟨[], [(5, 2)], 3, []⟩ 2 (by decide)⟩⟩

theorem c5_split_no_mutation_witness :
    visit 1 [] 0 ⟨[(0, .leaf ⟨1, []⟩)], [], 0, []⟩
      = some (.leafDef 0 [], ⟨[(0, .leaf ⟨1, []⟩)], [(0, 0)], 1, [([], 1)]⟩) ∧
    (⟨[(0, .leaf ⟨1, []⟩)], [(0, 0)], 1, [([], 1)]⟩ : SplitSt).store
      = (⟨[(0, .leaf ⟨1, []⟩)], [], 0, []⟩ : SplitSt).store :=
  ⟨by simp [visit, alook],
    c5_split_no_mutation.1 1 [] 0 ⟨[(0, .leaf ⟨1, []⟩)], [], 0, []⟩
      (.leafDef 0 [], ⟨[(0, .leaf ⟨1, []⟩)], [(0, 0)], 1, [([], 1)]⟩)
      (by simp [visit, alook])⟩

theorem c6_update_noop_witness :
    wfGraph sharedPairG ∧
    ∃ S : GraphState, state sharedPairG = some S ∧
      update sharedPairG S = some sharedPairG :=
  ⟨by decide, c6_update_noop sharedPairG (by decide)⟩

theorem c8_empty_graph_witness :
    (wfGraph selfLoopG ∧ noLeaves selfLoopG.store) ∧
    ∃ D : NodeDef, split selfLoopG = some (D, []) ∧
      ∃ G2, merge D [] = Except.ok G2 :=
  ⟨⟨by decide, by decide⟩, c8_empty_graph selfLoopG (by decide) (by decide)⟩

end FlaxNNX
